import Mathlib

/-!
Verification of the MPD playback-queue core against its specification.

The repository's own sources under `src/` contain the protocol command layer
(`src/command/QueueCommands.cxx`); the queue core it drives (the Entry Store,
Version Ledger, Random Order Engine and Bulk Edit Scope of `queue/Playlist.hxx`,
`playlist_edit.cxx`, `BulkEdit.hxx`, `queue_print.cxx`) is not part of the
shown sources, so those parts are modelled from the specification, while the
command handlers (`handle_add`, `handle_addid`, `handle_delete`, `handle_prio`,
`handle_prioid`, `handle_shuffle`, `parse_time_range`) are embedded directly
from `QueueCommands.cxx`.
-/

open scoped List

namespace MpdQueue

/-- Modelled from the spec: one queued track of the Entry Store (the concrete
`queue/Queue.hxx` item type is not among the shown sources).  `song` is the
opaque track descriptor; `version` is the ledger version at which the entry was
last structurally touched. -/
structure Entry where
  id : Nat
  song : Nat
  prio : Nat
  version : Nat
deriving DecidableEq, Repr

/-- Error taxonomy of the spec (kinds, not type names): `badArg` stands for the
protocol-argument rejection (`ACK_ERROR_ARG`) raised by the command layer. -/
inductive Err where
  | invalidRange
  | noSuchId
  | capacityExceeded
  | badArg
deriving DecidableEq, Repr

abbrev Songs := List Entry

/-- Insert an entry at position `i` (callers pre-clamp `i` to `[0, length]`),
shifting all entries at or after `i` by one. -/
def insertAtPos (l : Songs) (i : Nat) (e : Entry) : Songs :=
  l.take i ++ e :: l.drop i

/-- Exchange the elements at positions `i` and `j`; no-op when either index is
out of bounds. -/
def swapList {α : Type} (l : List α) (i j : Nat) : List α :=
  match l[i]?, l[j]? with
  | some a, some b => (l.set i b).set j a
  | _, _ => l

/-- Fisher–Yates over the sub-range `[start, start + n)`: the step for `n + 1`
exchanges position `start + n` with a position drawn from `[start, start + n]`;
`rng i` is the raw random draw used at index `i`. -/
def fyShuffle {α : Type} (rng : Nat → Nat) (start : Nat) : Nat → List α → List α
  | 0, l => l
  | n + 1, l =>
    fyShuffle rng start n (swapList l (start + n) (start + rng (start + n) % (n + 1)))

/-- Modelled from the spec: the composed queue state (Entry Store fields
`songs`, `nextId`, `maxLen`; Version Ledger fields `version`, `floor`; Random
Order Engine field `order`, `none` meaning invalidated; Bulk Edit Scope fields
`bulkDepth`, `bulkPending`).  The concrete `queue/Playlist.hxx` state is not
among the shown sources. -/
structure Facade where
  songs : Songs
  nextId : Nat
  maxLen : Nat
  version : Nat
  floor : Nat
  order : Option (List Nat)
  bulkDepth : Nat
  bulkPending : Bool
deriving DecidableEq, Repr

/-- Modelled from the spec: `insert(index, song)` — clamps the index to
`[0, length]`, allocates a fresh id, fails with `CapacityExceeded` when the
configured maximum queue length is reached.  Returns the new entry list, the
lowest touched position and the next id to allocate. -/
def InsertSong (maxLen nextId : Nat) (l : Songs) (idx song : Nat) :
    Except Err (Songs × Nat × Nat) :=
  if maxLen ≤ l.length then .error .capacityExceeded
  else
    let i := min idx l.length
    .ok (insertAtPos l i ⟨nextId, song, 0, 0⟩, i, nextId + 1)

/-- Modelled from the spec: `remove_range(start, end)` — removes positions in
`[start, stop)`, fails with `InvalidRange` if `start > stop` or
`stop > length`, compacts the positions of the remaining entries. -/
def DeleteRange (l : Songs) (start stop : Nat) : Except Err (Songs × Nat) :=
  if start > stop ∨ stop > l.length then .error .invalidRange
  else .ok (l.take start ++ l.drop stop, start)

/-- Modelled from the spec: `move_range(start, end, dest)` — relocates the run
`[start, stop)` so that it begins at `dest`, where `dest` is a position in the
list after removal of the run; rejects a destination strictly inside the run
and an out-of-bounds destination. -/
def MoveRange (l : Songs) (start stop dest : Nat) : Except Err (Songs × Nat) :=
  if start > stop ∨ stop > l.length then .error .invalidRange
  else if dest > l.length - (stop - start) then .error .invalidRange
  else if start < dest ∧ dest < stop then .error .invalidRange
  else
    let run := (l.drop start).take (stop - start)
    let rest := l.take start ++ l.drop stop
    .ok (rest.take dest ++ run ++ rest.drop dest, min start dest)

/-- Modelled from the spec: `swap(pos_a, pos_b)` — exchanges two entries'
positions, failing with `InvalidRange` on an out-of-bounds position. -/
def SwapPositions (l : Songs) (i j : Nat) : Except Err (Songs × Nat) :=
  if l.length ≤ i ∨ l.length ≤ j then .error .invalidRange
  else .ok (swapList l i j, min i j)

/-- Modelled from the spec: `set_priority_range(start, end, priority)` —
updates priorities inside `[start, stop)` without moving entries. -/
def SetPriorityRange (l : Songs) (start stop p : Nat) : Except Err (Songs × Nat) :=
  if start > stop ∨ stop > l.length then .error .invalidRange
  else
    .ok (l.take start ++
           ((l.drop start).take (stop - start)).map (fun e => { e with prio := p }) ++
           l.drop stop,
         start)

/-- Modelled from the spec: `shuffle_range(start, end)` — Fisher–Yates over the
sub-range only; the end is clamped to the queue length (the `shuffle` handler
passes an unbounded default range). -/
def ShuffleRange (rng : Nat → Nat) (l : Songs) (start stop : Nat) : Songs × Nat :=
  let stop2 := min stop l.length
  let start2 := min start stop2
  (fyShuffle rng start2 (stop2 - start2) l, start2)

/-- Modelled from the spec: the id → position lookup of the dual index. -/
def idToPosition (l : Songs) (id : Nat) : Option Nat :=
  l.findIdx? (fun e => e.id == id)

/-- Modelled from the spec: `remove_by_id(id)` — resolves the id, then behaves
as `remove_range` of length one; fails with `NoSuchId`. -/
def DeleteId (l : Songs) (id : Nat) : Except Err (Songs × Nat) :=
  match idToPosition l id with
  | none => .error .noSuchId
  | some p => DeleteRange l p (p + 1)

/-- Modelled from the spec: move a single entry, resolved by id, to `dest`. -/
def MoveId (l : Songs) (id dest : Nat) : Except Err (Songs × Nat) :=
  match idToPosition l id with
  | none => .error .noSuchId
  | some p => MoveRange l p (p + 1) dest

/-- Modelled from the spec: `swap_by_id(id_a, id_b)`. -/
def SwapIds (l : Songs) (a b : Nat) : Except Err (Songs × Nat) :=
  match idToPosition l a, idToPosition l b with
  | some i, some j => SwapPositions l i j
  | _, _ => .error .noSuchId

/-- Modelled from the spec: `set_priority_id(id, priority)`. -/
def SetPriorityId (l : Songs) (id p : Nat) : Except Err (Songs × Nat) :=
  match idToPosition l id with
  | none => .error .noSuchId
  | some i => SetPriorityRange l i (i + 1) p

/-- A single Entry Store mutation as invoked by the facade; `shuffle` carries
its source of random draws. -/
inductive Mut where
  | append (song : Nat)
  | insert (idx song : Nat)
  | delete (start stop : Nat)
  | deleteId (id : Nat)
  | move (start stop dest : Nat)
  | moveId (id dest : Nat)
  | swap (i j : Nat)
  | swapId (a b : Nat)
  | prioRange (start stop prio : Nat)
  | prioId (id prio : Nat)
  | shuffle (rng : Nat → Nat) (start stop : Nat)
  | clear

/-- Run the store part of one mutation: returns the new entry list, the lowest
touched position (for `mark_touched`) and the next id to allocate. -/
def runStore (s : Facade) : Mut → Except Err (Songs × Nat × Nat)
  | .append song => InsertSong s.maxLen s.nextId s.songs s.songs.length song
  | .insert idx song => InsertSong s.maxLen s.nextId s.songs idx song
  | .delete a b => (DeleteRange s.songs a b).map (fun r => (r.1, r.2, s.nextId))
  | .deleteId id => (DeleteId s.songs id).map (fun r => (r.1, r.2, s.nextId))
  | .move a b d => (MoveRange s.songs a b d).map (fun r => (r.1, r.2, s.nextId))
  | .moveId id d => (MoveId s.songs id d).map (fun r => (r.1, r.2, s.nextId))
  | .swap i j => (SwapPositions s.songs i j).map (fun r => (r.1, r.2, s.nextId))
  | .swapId a b => (SwapIds s.songs a b).map (fun r => (r.1, r.2, s.nextId))
  | .prioRange a b p => (SetPriorityRange s.songs a b p).map (fun r => (r.1, r.2, s.nextId))
  | .prioId id p => (SetPriorityId s.songs id p).map (fun r => (r.1, r.2, s.nextId))
  | .shuffle rng a b =>
    let r := ShuffleRange rng s.songs a b
    .ok (r.1, r.2, s.nextId)
  | .clear => .ok ([], 0, s.nextId)

/-- Stamp every entry at a position at or after `t` with ledger version `v`
(conservative per-entry version marking of structurally touched entries). -/
def stampFrom (t v : Nat) (l : Songs) : Songs :=
  l.take t ++ (l.drop t).map (fun e => { e with version := v })

/-- Modelled from the spec: one facade mutation — runs the store operation,
and on success marks the ledger floor, stamps touched entries, invalidates the
random-order permutation, and either bumps the version (outside a Bulk Edit
Scope) or records a pending coalesced bump (inside one).  On failure the state
is returned unchanged together with the error, as the C++ exception unwinds
before any state is written. -/
def applyMut (s : Facade) (m : Mut) : Facade × Option Err :=
  match runStore s m with
  | .error e => (s, some e)
  | .ok r =>
    let v2 := s.version + 1
    let base : Facade :=
      { s with songs := stampFrom r.2.1 v2 r.1,
               nextId := r.2.2,
               floor := min s.floor r.2.1,
               order := none }
    if s.bulkDepth = 0 then ({ base with version := v2 }, none)
    else ({ base with bulkPending := true }, none)

/-- Modelled from the spec: entering a Bulk Edit Scope increments the nesting
counter (`ScopeBulkEdit` acquisition in `AddDatabaseSelection`). -/
def beginBulk (s : Facade) : Facade :=
  { s with bulkDepth := s.bulkDepth + 1 }

/-- Modelled from the spec: leaving a Bulk Edit Scope decrements the nesting
counter and, when it returns to zero, performs exactly one coalesced version
bump if any mutation occurred inside the scope. -/
def endBulk (s : Facade) : Facade :=
  if s.bulkDepth ≤ 1 then
    { s with bulkDepth := 0, bulkPending := false,
             version := if s.bulkPending then s.version + 1 else s.version }
  else { s with bulkDepth := s.bulkDepth - 1 }

/-- Apply a list of mutations in order, stopping at the first failure (the C++
exception aborts the enclosing loop). -/
def applyMuts (s : Facade) : List Mut → Facade × Option Err
  | [] => (s, none)
  | m :: ms =>
    match applyMut s m with
    | (s2, none) => applyMuts s2 ms
    | (s2, some e) => (s2, some e)

/-- Embedded from `handle_add` / `handle_addid` (`QueueCommands.cxx`): the
literal URI `"/"` is rewritten to the empty string before any lookup, as a
backwards-compatibility workaround for buggy clients. -/
def translateAddUri (uri : String) : String :=
  if uri = "/" then "" else uri

/-- The external collaborators of the queue core: the database selection
(URI to matching songs) and the song loader (URI to one track descriptor). -/
structure Env where
  database : String → List Nat
  loader : String → Nat

/-- One queue command as validated and dispatched by the command layer of
`QueueCommands.cxx`. -/
inductive Cmd where
  | add (uri : String)
  | addId (uri : String) (dest : Option Nat)
  | delete (start stop : Nat)
  | deleteId (id : Nat)
  | move (start stop dest : Nat)
  | moveId (id dest : Nat)
  | swap (i j : Nat)
  | swapId (a b : Nat)
  | shuffle (rng : Nat → Nat) (start stop : Nat)
  | clear
  | prio (prio : Nat) (ranges : List (Nat × Nat))
  | prioId (prio : Nat) (ids : List Nat)

/-- Embedded from the command handlers of `QueueCommands.cxx`: `add` wraps its
database insertion in one Bulk Edit Scope (`AddDatabaseSelection`); `addid`
appends and then moves the new entry, deleting it again if the move fails
(the rollback of `handle_addid`); `prio`/`prioid` parse the priority with
upper bound `0xff` (`args.ParseUnsigned(0, 0xff)`) before touching any entry.
The queue operations the handlers call are the facade mutations above. -/
def applyCmd (env : Env) (s : Facade) : Cmd → Facade × Option Err
  | .add uri =>
    let songs := env.database (translateAddUri uri)
    let s1 := beginBulk s
    let r := applyMuts s1 (songs.map Mut.append)
    (endBulk r.1, r.2)
  | .addId uri dest =>
    let song := env.loader (translateAddUri uri)
    let newId := s.nextId
    match applyMut s (.append song) with
    | (s1, some e) => (s1, some e)
    | (s1, none) =>
      match dest with
      | none => (s1, none)
      | some t =>
        match applyMut s1 (.moveId newId t) with
        | (s2, none) => (s2, none)
        | (s2, some e) => ((applyMut s2 (.deleteId newId)).1, some e)
  | .delete a b => applyMut s (.delete a b)
  | .deleteId id => applyMut s (.deleteId id)
  | .move a b d => applyMut s (.move a b d)
  | .moveId id d => applyMut s (.moveId id d)
  | .swap i j => applyMut s (.swap i j)
  | .swapId a b => applyMut s (.swapId a b)
  | .shuffle rng a b => applyMut s (.shuffle rng a b)
  | .clear => applyMut s .clear
  | .prio p ranges =>
    if 255 < p then (s, some .badArg)
    else applyMuts s (ranges.map (fun r => Mut.prioRange r.1 r.2 p))
  | .prioId p ids =>
    if 255 < p then (s, some .badArg)
    else applyMuts s (ids.map (fun id => Mut.prioId id p))

/-- The empty queue at daemon start, with the configured maximum length. -/
def initQueue (maxLen : Nat) : Facade :=
  { songs := [], nextId := 0, maxLen := maxLen, version := 0, floor := 0,
    order := none, bulkDepth := 0, bulkPending := false }

/-- States reachable from the empty queue by sequences of commands. -/
inductive Reach : Facade → Prop where
  | init (maxLen : Nat) : Reach (initQueue maxLen)
  | step (env : Env) (c : Cmd) {s : Facade} : Reach s → Reach (applyCmd env s c).1

/-- Apply a list of commands, each with its environment, keeping the resulting
state (errors leave the state of the failing step unchanged). -/
def applyCmds (s : Facade) : List (Env × Cmd) → Facade
  | [] => s
  | ec :: rest => applyCmds (applyCmd ec.1 s ec.2).1 rest

/-- Modelled from the spec: `by_position(pos)` lookup. -/
def byPosition (s : Facade) (p : Nat) : Option Entry :=
  s.songs[p]?

/-- Modelled from the spec: `by_id(id)` lookup through the id index, returning
the entry together with its current position. -/
def byId (s : Facade) (id : Nat) : Option (Nat × Entry) :=
  match idToPosition s.songs id with
  | none => none
  | some p => (s.songs[p]?).map (fun e => (p, e))

/-- The position of an id derived through the id index (`length` if absent). -/
def positionOfId (s : Facade) (id : Nat) : Nat :=
  s.songs.findIdx (fun e => e.id == id)

/-- Modelled from the spec: the diff query `(from_version, window)` of the
Version Ledger — every entry in the window whose position is at or above the
floor, or whose own entry version is newer than `from_version`. -/
def diffSince (s : Facade) (v a b : Nat) : List (Nat × Entry) :=
  (List.range s.songs.length).filterMap (fun p =>
    match s.songs[p]? with
    | none => none
    | some e => if a ≤ p ∧ p < b ∧ (s.floor ≤ p ∨ v < e.version) then some (p, e) else none)

/-- Entry Store invariant: present ids are pairwise distinct and below the
monotone id allocator. -/
def StoreInv (s : Facade) : Prop :=
  (s.songs.map Entry.id).Nodup ∧ ∀ e ∈ s.songs, e.id < s.nextId

/-- Priority invariant: every stored priority lies in `[0, 255]`. -/
def PrioInv (s : Facade) : Prop :=
  ∀ e ∈ s.songs, e.prio ≤ 255

/-! ### List-level helper lemmas -/

theorem subperm_nodup {α : Type} {l1 l2 : List α} (h : l1 <+~ l2) (hn : l2.Nodup) :
    l1.Nodup := by
  obtain ⟨l, hperm, hsub⟩ := h
  exact hperm.nodup (hn.sublist hsub)

theorem cons_getElem_set_perm {α : Type} :
    ∀ (xs : List α) (m : Nat) (x : α) (h : m < xs.length),
      (xs[m] :: xs.set m x) ~ (x :: xs) := by
  intro xs
  induction xs with
  | nil => intro m x h; simp at h
  | cons y ys ih =>
    intro m x h
    cases m with
    | zero =>
      simpa using List.Perm.swap x y ys
    | succ m =>
      have hm : m < ys.length := by simpa using h
      have step1 : (ys[m] :: y :: ys.set m x) ~ (y :: ys[m] :: ys.set m x) :=
        List.Perm.swap y ys[m] (ys.set m x)
      have step2 : (y :: ys[m] :: ys.set m x) ~ (y :: x :: ys) :=
        (ih m x hm).cons y
      have step3 : (y :: x :: ys) ~ (x :: y :: ys) := List.Perm.swap x y ys
      simpa using (step1.trans step2).trans step3

theorem set_set_perm {α : Type} :
    ∀ (l : List α) (i j : Nat) (hi : i < l.length) (hj : j < l.length),
      ((l.set i l[j]).set j l[i]) ~ l := by
  intro l
  induction l with
  | nil => intro i j hi hj; simp at hi
  | cons y ys ih =>
    intro i j hi hj
    cases i with
    | zero =>
      cases j with
      | zero => simp
      | succ j =>
        have hj2 : j < ys.length := by simpa using hj
        simpa using cons_getElem_set_perm ys j y hj2
    | succ i =>
      cases j with
      | zero =>
        have hi2 : i < ys.length := by simpa using hi
        simpa using cons_getElem_set_perm ys i y hi2
      | succ j =>
        have hi2 : i < ys.length := by simpa using hi
        have hj2 : j < ys.length := by simpa using hj
        simpa using (ih i j hi2 hj2).cons y

theorem swapList_eq {α : Type} {l : List α} {i j : Nat}
    (hi : i < l.length) (hj : j < l.length) :
    swapList l i j = (l.set i l[j]).set j l[i] := by
  simp [swapList, List.getElem?_eq_getElem, hi, hj]

theorem swapList_perm {α : Type} {l : List α} {i j : Nat}
    (hi : i < l.length) (hj : j < l.length) :
    swapList l i j ~ l := by
  rw [swapList_eq hi hj]
  exact set_set_perm l i j hi hj

theorem swapList_length {α : Type} (l : List α) (i j : Nat) :
    (swapList l i j).length = l.length := by
  unfold swapList
  cases h1 : l[i]? <;> cases h2 : l[j]? <;> simp

theorem swapList_getElem?_ne {α : Type} {l : List α} {i j : Nat} (k : Nat)
    (hki : k ≠ i) (hkj : k ≠ j) : (swapList l i j)[k]? = l[k]? := by
  unfold swapList
  cases h1 : l[i]? <;> cases h2 : l[j]? <;>
    simp [List.getElem?_set_ne (Ne.symm hki), List.getElem?_set_ne (Ne.symm hkj)]

theorem fyShuffle_length {α : Type} (rng : Nat → Nat) (start : Nat) :
    ∀ (n : Nat) (l : List α), (fyShuffle rng start n l).length = l.length := by
  intro n
  induction n with
  | zero => intro l; rfl
  | succ n ih =>
    intro l
    rw [fyShuffle, ih, swapList_length]

theorem fyShuffle_perm {α : Type} (rng : Nat → Nat) (start : Nat) :
    ∀ (n : Nat) (l : List α), start + n ≤ l.length → fyShuffle rng start n l ~ l := by
  intro n
  induction n with
  | zero => intro l _; exact List.Perm.refl l
  | succ n ih =>
    intro l hn
    have hi : start + n < l.length := by omega
    have hj : start + rng (start + n) % (n + 1) < l.length := by
      have := Nat.mod_lt (rng (start + n)) (show 0 < n + 1 by omega)
      omega
    have hswap : swapList l (start + n) (start + rng (start + n) % (n + 1)) ~ l :=
      swapList_perm hi hj
    have hlen : start + n ≤ (swapList l (start + n) (start + rng (start + n) % (n + 1))).length := by
      rw [swapList_length]; omega
    exact (ih _ hlen).trans hswap

theorem fyShuffle_getElem?_outside {α : Type} (rng : Nat → Nat) (start : Nat) :
    ∀ (n : Nat) (l : List α) (k : Nat), (k < start ∨ start + n ≤ k) →
      (fyShuffle rng start n l)[k]? = l[k]? := by
  intro n
  induction n with
  | zero => intro l k _; rfl
  | succ n ih =>
    intro l k hk
    have hk2 : k < start ∨ start + n ≤ k := by omega
    rw [fyShuffle, ih _ _ hk2]
    have hmod : rng (start + n) % (n + 1) ≤ n := by
      have := Nat.mod_lt (rng (start + n)) (show 0 < n + 1 by omega)
      omega
    exact swapList_getElem?_ne k (by omega) (by omega)

theorem take_mid_drop {α : Type} (a b : Nat) (l : List α) (hab : a ≤ b) :
    l.take a ++ ((l.drop a).take (b - a) ++ l.drop b) = l := by
  have h1 : (l.drop a).take (b - a) ++ (l.drop a).drop (b - a) = l.drop a :=
    List.take_append_drop _ _
  have h2 : (l.drop a).drop (b - a) = l.drop b := by
    rw [List.drop_drop, Nat.add_sub_cancel' hab]
  rw [h2] at h1
  rw [h1, List.take_append_drop]

/-! ### Stamping lemmas -/

theorem stampFrom_length (t v : Nat) (l : Songs) :
    (stampFrom t v l).length = l.length := by
  simp [stampFrom]
  omega

theorem stampFrom_map_id (t v : Nat) (l : Songs) :
    (stampFrom t v l).map Entry.id = l.map Entry.id := by
  calc (stampFrom t v l).map Entry.id
      = (l.take t).map Entry.id ++
          ((l.drop t).map (fun e => { e with version := v })).map Entry.id := by
        simp [stampFrom]
    _ = (l.take t).map Entry.id ++ (l.drop t).map Entry.id := by
        rw [List.map_map]
        rfl
    _ = l.map Entry.id := by
        rw [← List.map_append, List.take_append_drop]

theorem mem_stampFrom {e : Entry} {t v : Nat} {l : Songs} (h : e ∈ stampFrom t v l) :
    ∃ e0 ∈ l, e.id = e0.id ∧ e.prio = e0.prio ∧ e.song = e0.song := by
  rw [stampFrom, List.mem_append] at h
  rcases h with h | h
  · exact ⟨e, List.mem_of_mem_take h, rfl, rfl, rfl⟩
  · rcases List.mem_map.mp h with ⟨e0, he0, rfl⟩
    exact ⟨e0, List.mem_of_mem_drop he0, rfl, rfl, rfl⟩

theorem stampFrom_getElem?_lt {t v : Nat} {l : Songs} {p : Nat} (h : p < t) :
    (stampFrom t v l)[p]? = l[p]? := by
  by_cases hp : p < l.length
  · have hmin : p < (l.take t).length := by
      simp only [List.length_take]
      omega
    rw [stampFrom, List.getElem?_append_left hmin, List.getElem?_take_of_lt h]
  · have h1 : l[p]? = none := List.getElem?_eq_none (by omega)
    have h2 : (stampFrom t v l)[p]? = none := by
      apply List.getElem?_eq_none
      rw [stampFrom_length]
      omega
    rw [h1, h2]

theorem stampFrom_getElem?_ge {t v : Nat} {l : Songs} {p : Nat} (h : t ≤ p) :
    (stampFrom t v l)[p]? = (l[p]?).map (fun e => { e with version := v }) := by
  by_cases hl : t ≤ l.length
  · have hlen : (l.take t).length = t := by
      simp only [List.length_take]
      omega
    rw [stampFrom, List.getElem?_append_right (by omega : (l.take t).length ≤ p), hlen,
        List.getElem?_map, List.getElem?_drop]
    have harith : t + (p - t) = p := by omega
    rw [harith]
  · have h1 : l.take t = l := List.take_of_length_le (by omega)
    have h2 : l.drop t = [] := List.drop_eq_nil_of_le (by omega)
    rw [stampFrom, h1, h2]
    rw [List.getElem?_eq_none (by simp; omega), List.getElem?_eq_none (by omega)]
    rfl

/-! ### Per-operation characterizations -/

theorem middle_splice_perm {α : Type} (T M D : List α) :
    (T ++ M ++ D) ~ (M ++ (T ++ D)) := by
  calc T ++ M ++ D ~ (M ++ T) ++ D := List.perm_append_comm.append_right D
    _ = M ++ (T ++ D) := by rw [List.append_assoc]

theorem splice_perm {α : Type} (A R B : List α) (d : Nat) :
    ((A ++ B).take d ++ R ++ (A ++ B).drop d) ~ (A ++ (R ++ B)) := by
  have h1 : ((A ++ B).take d ++ R ++ (A ++ B).drop d) ~
      (R ++ ((A ++ B).take d ++ (A ++ B).drop d)) := middle_splice_perm _ _ _
  rw [List.take_append_drop] at h1
  have h2 : (A ++ R ++ B) ~ (R ++ (A ++ B)) := middle_splice_perm A R B
  rw [List.append_assoc] at h2
  exact h1.trans h2.symm

theorem insertAtPos_map_id_perm (l : Songs) (i : Nat) (e : Entry) :
    (insertAtPos l i e).map Entry.id ~ e.id :: l.map Entry.id := by
  have h1 : (insertAtPos l i e).map Entry.id
      = (l.take i).map Entry.id ++ e.id :: (l.drop i).map Entry.id := by
    simp [insertAtPos]
  rw [h1]
  have h2 := @List.perm_middle Nat e.id ((l.take i).map Entry.id) ((l.drop i).map Entry.id)
  rw [← List.map_append, List.take_append_drop] at h2
  exact h2

theorem delete_sublist (l : Songs) (a b : Nat) (hab : a ≤ b) :
    (l.take a ++ l.drop b) <+ l := by
  conv_rhs => rw [← take_mid_drop a b l hab]
  exact List.Sublist.append_left (List.sublist_append_right _ _) _

theorem InsertSong_ok {maxLen nextId idx song : Nat} {l : Songs} {r : Songs × Nat × Nat}
    (h : InsertSong maxLen nextId l idx song = .ok r) :
    r = (insertAtPos l (min idx l.length) ⟨nextId, song, 0, 0⟩, min idx l.length, nextId + 1)
      ∧ l.length < maxLen := by
  rw [InsertSong] at h
  by_cases hc : maxLen ≤ l.length
  · rw [if_pos hc] at h; cases h
  · rw [if_neg hc] at h
    simp only [Except.ok.injEq] at h
    exact ⟨h.symm, by omega⟩

theorem DeleteRange_ok {l : Songs} {a b : Nat} {r : Songs × Nat}
    (h : DeleteRange l a b = .ok r) :
    r = (l.take a ++ l.drop b, a) ∧ a ≤ b ∧ b ≤ l.length := by
  rw [DeleteRange] at h
  by_cases hc : a > b ∨ b > l.length
  · rw [if_pos hc] at h; cases h
  · rw [if_neg hc] at h
    simp only [Except.ok.injEq] at h
    exact ⟨h.symm, by omega, by omega⟩

theorem DeleteRange_error_iff {l : Songs} {a b : Nat} {e : Err} :
    DeleteRange l a b = .error e ↔ (b < a ∨ l.length < b) ∧ e = .invalidRange := by
  rw [DeleteRange]
  by_cases hc : a > b ∨ b > l.length
  · rw [if_pos hc]
    simp only [Except.error.injEq]
    constructor
    · intro h; exact ⟨by omega, h.symm⟩
    · intro h; exact h.2.symm
  · rw [if_neg hc]
    constructor
    · intro h; cases h
    · intro h; omega

theorem MoveRange_ok {l : Songs} {a b d : Nat} {r : Songs × Nat}
    (h : MoveRange l a b d = .ok r) :
    r = ((l.take a ++ l.drop b).take d ++ (l.drop a).take (b - a) ++
          (l.take a ++ l.drop b).drop d, min a d)
      ∧ a ≤ b ∧ b ≤ l.length ∧ d ≤ l.length - (b - a) ∧ ¬(a < d ∧ d < b) := by
  rw [MoveRange] at h
  by_cases h1 : a > b ∨ b > l.length
  · rw [if_pos h1] at h; cases h
  · rw [if_neg h1] at h
    by_cases h2 : d > l.length - (b - a)
    · rw [if_pos h2] at h; cases h
    · rw [if_neg h2] at h
      by_cases h3 : a < d ∧ d < b
      · rw [if_pos h3] at h; cases h
      · rw [if_neg h3] at h
        simp only [Except.ok.injEq] at h
        exact ⟨h.symm, by omega, by omega, by omega, h3⟩

theorem SwapPositions_ok {l : Songs} {i j : Nat} {r : Songs × Nat}
    (h : SwapPositions l i j = .ok r) :
    r = (swapList l i j, min i j) ∧ i < l.length ∧ j < l.length := by
  rw [SwapPositions] at h
  by_cases hc : l.length ≤ i ∨ l.length ≤ j
  · rw [if_pos hc] at h; cases h
  · rw [if_neg hc] at h
    simp only [Except.ok.injEq] at h
    exact ⟨h.symm, by omega, by omega⟩

theorem SetPriorityRange_ok {l : Songs} {a b p : Nat} {r : Songs × Nat}
    (h : SetPriorityRange l a b p = .ok r) :
    r = (l.take a ++ ((l.drop a).take (b - a)).map (fun e => { e with prio := p }) ++
          l.drop b, a)
      ∧ a ≤ b ∧ b ≤ l.length := by
  rw [SetPriorityRange] at h
  by_cases hc : a > b ∨ b > l.length
  · rw [if_pos hc] at h; cases h
  · rw [if_neg hc] at h
    simp only [Except.ok.injEq] at h
    exact ⟨h.symm, by omega, by omega⟩

theorem idToPosition_some {l : Songs} {id p : Nat} (h : idToPosition l id = some p) :
    ∃ hp : p < l.length, (l.get ⟨p, hp⟩).id = id := by
  rw [idToPosition, List.findIdx?_eq_some_iff_getElem] at h
  obtain ⟨hp, hbeq, _⟩ := h
  refine ⟨hp, ?_⟩
  simpa using hbeq

/-- The delete/compact identity: removing `[a, b)` keeps the prefix and shifts
the tail left by `b - a`. -/
theorem delete_getElem? (l : Songs) (a b : Nat) (hab : a ≤ b) (hbl : b ≤ l.length) :
    (∀ p, p < a → (l.take a ++ l.drop b)[p]? = l[p]?) ∧
    (∀ p, a ≤ p → (l.take a ++ l.drop b)[p]? = l[p + (b - a)]?) := by
  constructor
  · intro p hp
    have hlt : p < (l.take a).length := by
      simp only [List.length_take]
      omega
    rw [List.getElem?_append_left hlt, List.getElem?_take_of_lt hp]
  · intro p hp
    have hlen : (l.take a).length = a := by
      simp only [List.length_take]
      omega
    rw [List.getElem?_append_right (by omega : (l.take a).length ≤ p), hlen,
        List.getElem?_drop]
    have : b + (p - a) = p + (b - a) := by omega
    rw [this]

theorem prio_map_id (l : Songs) (a b p : Nat) (hab : a ≤ b) :
    (l.take a ++ ((l.drop a).take (b - a)).map (fun e : Entry => { e with prio := p }) ++
      l.drop b).map Entry.id = l.map Entry.id := by
  rw [List.map_append, List.map_append, List.map_map]
  have hc : (Entry.id ∘ fun e : Entry => { e with prio := p }) = Entry.id := rfl
  rw [hc, ← List.map_append, ← List.map_append, List.append_assoc, take_mid_drop a b l hab]

/-- Success of `runStore` either allocates exactly the next id (insert paths)
or keeps the present ids a sub-permutation of the old ones. -/
theorem runStore_ids {s : Facade} {m : Mut} {l2 : Songs} {t nid : Nat}
    (h : runStore s m = .ok (l2, t, nid)) :
    (l2.map Entry.id ~ s.nextId :: s.songs.map Entry.id ∧ nid = s.nextId + 1) ∨
    (l2.map Entry.id <+~ s.songs.map Entry.id ∧ nid = s.nextId) := by
  cases m with
  | append song =>
    obtain ⟨hr, _⟩ := InsertSong_ok h
    cases hr
    exact Or.inl ⟨insertAtPos_map_id_perm _ _ _, rfl⟩
  | insert idx song =>
    obtain ⟨hr, _⟩ := InsertSong_ok h
    cases hr
    exact Or.inl ⟨insertAtPos_map_id_perm _ _ _, rfl⟩
  | delete a b =>
    rw [runStore] at h
    rcases hd : DeleteRange s.songs a b with e | r
    · rw [hd] at h; cases h
    · rw [hd] at h
      simp only [Except.map, Except.ok.injEq] at h
      obtain ⟨h1, _, h3⟩ := Prod.mk.injEq .. ▸ h
      obtain ⟨hr, hab, _⟩ := DeleteRange_ok hd
      refine Or.inr ⟨?_, by simp_all⟩
      have : r.1 = s.songs.take a ++ s.songs.drop b := by rw [hr]
      rw [← h1, this]
      exact ((delete_sublist s.songs a b hab).map Entry.id).subperm
  | deleteId id =>
    rw [runStore] at h
    rcases hi : idToPosition s.songs id with _ | p
    · simp only [DeleteId, hi] at h; cases h
    · simp only [DeleteId, hi] at h
      rcases hd : DeleteRange s.songs p (p + 1) with e | r
      · rw [hd] at h; cases h
      · rw [hd] at h
        simp only [Except.map, Except.ok.injEq] at h
        obtain ⟨h1, _, h3⟩ := Prod.mk.injEq .. ▸ h
        obtain ⟨hr, hab, _⟩ := DeleteRange_ok hd
        refine Or.inr ⟨?_, by simp_all⟩
        have : r.1 = s.songs.take p ++ s.songs.drop (p + 1) := by rw [hr]
        rw [← h1, this]
        exact ((delete_sublist s.songs p (p + 1) hab).map Entry.id).subperm
  | move a b d =>
    rw [runStore] at h
    rcases hd : MoveRange s.songs a b d with e | r
    · rw [hd] at h; cases h
    · rw [hd] at h
      simp only [Except.map, Except.ok.injEq] at h
      obtain ⟨h1, _, h3⟩ := Prod.mk.injEq .. ▸ h
      obtain ⟨hr, hab, hbl, _, _⟩ := MoveRange_ok hd
      refine Or.inr ⟨?_, by simp_all⟩
      have hperm : r.1 ~ s.songs := by
        rw [hr]
        have hs := splice_perm (s.songs.take a) ((s.songs.drop a).take (b - a))
          (s.songs.drop b) d
        have hid := take_mid_drop a b s.songs hab
        exact hs.trans (by rw [hid])
      rw [← h1]
      exact (hperm.map Entry.id).subperm
  | moveId id d =>
    rw [runStore] at h
    rcases hi : idToPosition s.songs id with _ | p
    · simp only [MoveId, hi] at h; cases h
    · simp only [MoveId, hi] at h
      rcases hd : MoveRange s.songs p (p + 1) d with e | r
      · rw [hd] at h; cases h
      · rw [hd] at h
        simp only [Except.map, Except.ok.injEq] at h
        obtain ⟨h1, _, h3⟩ := Prod.mk.injEq .. ▸ h
        obtain ⟨hr, hab, hbl, _, _⟩ := MoveRange_ok hd
        refine Or.inr ⟨?_, by simp_all⟩
        have hperm : r.1 ~ s.songs := by
          rw [hr]
          have hs := splice_perm (s.songs.take p) ((s.songs.drop p).take (p + 1 - p))
            (s.songs.drop (p + 1)) d
          have hid := take_mid_drop p (p + 1) s.songs hab
          exact hs.trans (by rw [hid])
        rw [← h1]
        exact (hperm.map Entry.id).subperm
  | swap i j =>
    rw [runStore] at h
    rcases hd : SwapPositions s.songs i j with e | r
    · rw [hd] at h; cases h
    · rw [hd] at h
      simp only [Except.map, Except.ok.injEq] at h
      obtain ⟨h1, _, h3⟩ := Prod.mk.injEq .. ▸ h
      obtain ⟨hr, hi2, hj2⟩ := SwapPositions_ok hd
      refine Or.inr ⟨?_, by simp_all⟩
      have : r.1 = swapList s.songs i j := by rw [hr]
      rw [← h1, this]
      exact ((swapList_perm hi2 hj2).map Entry.id).subperm
  | swapId a b =>
    rw [runStore] at h
    rcases ha : idToPosition s.songs a with _ | i
    · simp only [SwapIds, ha] at h; cases h
    · rcases hb : idToPosition s.songs b with _ | j
      · simp only [SwapIds, ha, hb] at h; cases h
      · simp only [SwapIds, ha, hb] at h
        rcases hd : SwapPositions s.songs i j with e | r
        · rw [hd] at h; cases h
        · rw [hd] at h
          simp only [Except.map, Except.ok.injEq] at h
          obtain ⟨h1, _, h3⟩ := Prod.mk.injEq .. ▸ h
          obtain ⟨hr, hi2, hj2⟩ := SwapPositions_ok hd
          refine Or.inr ⟨?_, by simp_all⟩
          have : r.1 = swapList s.songs i j := by rw [hr]
          rw [← h1, this]
          exact ((swapList_perm hi2 hj2).map Entry.id).subperm
  | prioRange a b p =>
    rw [runStore] at h
    rcases hd : SetPriorityRange s.songs a b p with e | r
    · rw [hd] at h; cases h
    · rw [hd] at h
      simp only [Except.map, Except.ok.injEq] at h
      obtain ⟨h1, _, h3⟩ := Prod.mk.injEq .. ▸ h
      obtain ⟨hr, hab, hbl⟩ := SetPriorityRange_ok hd
      refine Or.inr ⟨?_, by simp_all⟩
      have heq : r.1.map Entry.id = s.songs.map Entry.id := by
        rw [hr]
        exact prio_map_id s.songs a b p hab
      rw [← h1, heq]
  | prioId id p =>
    rw [runStore] at h
    rcases hi : idToPosition s.songs id with _ | q
    · simp only [SetPriorityId, hi] at h; cases h
    · simp only [SetPriorityId, hi] at h
      rcases hd : SetPriorityRange s.songs q (q + 1) p with e | r
      · rw [hd] at h; cases h
      · rw [hd] at h
        simp only [Except.map, Except.ok.injEq] at h
        obtain ⟨h1, _, h3⟩ := Prod.mk.injEq .. ▸ h
        obtain ⟨hr, hab, hbl⟩ := SetPriorityRange_ok hd
        refine Or.inr ⟨?_, by simp_all⟩
        have heq : r.1.map Entry.id = s.songs.map Entry.id := by
          rw [hr]
          exact prio_map_id s.songs q (q + 1) p hab
        rw [← h1, heq]
  | shuffle rng a b =>
    rw [runStore] at h
    simp only [ShuffleRange, Except.ok.injEq] at h
    obtain ⟨h1, _, h3⟩ := Prod.mk.injEq .. ▸ h
    refine Or.inr ⟨?_, by simp_all⟩
    have hperm : fyShuffle rng (min a (min b s.songs.length))
        (min b s.songs.length - min a (min b s.songs.length)) s.songs ~ s.songs := by
      apply fyShuffle_perm
      omega
    rw [← h1]
    exact (hperm.map Entry.id).subperm
  | clear =>
    rw [runStore] at h
    simp only [Except.ok.injEq] at h
    obtain ⟨h1, _, h3⟩ := Prod.mk.injEq .. ▸ h
    refine Or.inr ⟨?_, by simp_all⟩
    rw [← h1]
    simp

/-! ### Frame lemmas: positions below the touched floor are untouched -/

theorem append3_getElem?_left {α : Type} {A M D : List α} {q : Nat} (h : q < A.length) :
    (A ++ M ++ D)[q]? = A[q]? := by
  have h2 : q < (A ++ M).length := by
    simp only [List.length_append]
    omega
  rw [List.getElem?_append_left h2, List.getElem?_append_left h]

theorem insertAtPos_getElem?_lt {l : Songs} {i p : Nat} (e : Entry) (hp : p < i)
    (hi : i ≤ l.length) : (insertAtPos l i e)[p]? = l[p]? := by
  have hlt : p < (l.take i).length := by
    simp only [List.length_take]
    omega
  rw [insertAtPos, List.getElem?_append_left hlt, List.getElem?_take_of_lt hp]

theorem move_getElem?_lt {l : Songs} {a b d : Nat} (hab : a ≤ b) (hbl : b ≤ l.length)
    (hdle : d ≤ l.length - (b - a)) :
    ∀ p, p < min a d →
      ((l.take a ++ l.drop b).take d ++ (l.drop a).take (b - a) ++
        (l.take a ++ l.drop b).drop d)[p]? = l[p]? := by
  intro p hp
  have hrl : (l.take a ++ l.drop b).length = l.length - (b - a) := by
    simp only [List.length_append, List.length_take, List.length_drop]
    omega
  have hpT : p < ((l.take a ++ l.drop b).take d).length := by
    simp only [List.length_take, hrl]
    omega
  have hpTM : p < (((l.take a ++ l.drop b).take d) ++ (l.drop a).take (b - a)).length := by
    simp only [List.length_append]
    omega
  rw [List.getElem?_append_left hpTM, List.getElem?_append_left hpT,
      List.getElem?_take_of_lt (show p < d by omega)]
  exact (delete_getElem? l a b hab hbl).1 p (by omega)

theorem prio_getElem?_lt {l : Songs} {a b p q : Nat} (hq : q < a) (hal : a ≤ l.length) :
    (l.take a ++ ((l.drop a).take (b - a)).map (fun e : Entry => { e with prio := p }) ++
      l.drop b)[q]? = l[q]? := by
  have h : q < (l.take a).length := by
    simp only [List.length_take]
    omega
  rw [append3_getElem?_left h, List.getElem?_take_of_lt hq]

/-- Every position strictly below the reported touched position holds the same
entry as before the store mutation. -/
theorem runStore_frame {s : Facade} {m : Mut} {l2 : Songs} {t nid : Nat}
    (h : runStore s m = .ok (l2, t, nid)) :
    ∀ p, p < t → l2[p]? = s.songs[p]? := by
  cases m with
  | append song =>
    obtain ⟨hr, _⟩ := InsertSong_ok h
    cases hr
    intro p hp
    exact insertAtPos_getElem?_lt _ hp (by omega)
  | insert idx song =>
    obtain ⟨hr, _⟩ := InsertSong_ok h
    cases hr
    intro p hp
    exact insertAtPos_getElem?_lt _ hp (by omega)
  | delete a b =>
    rw [runStore] at h
    rcases hd : DeleteRange s.songs a b with e | r
    · rw [hd] at h; cases h
    · rw [hd] at h
      simp only [Except.map, Except.ok.injEq] at h
      obtain ⟨h1, h2, _⟩ := Prod.mk.injEq .. ▸ h
      obtain ⟨hr, hab, hbl⟩ := DeleteRange_ok hd
      intro p hp
      have ht : r.2 = a := by rw [hr]
      rw [← h1, hr]
      exact (delete_getElem? s.songs a b hab hbl).1 p (by omega)
  | deleteId id =>
    rw [runStore] at h
    rcases hi : idToPosition s.songs id with _ | q
    · simp only [DeleteId, hi] at h; cases h
    · simp only [DeleteId, hi] at h
      rcases hd : DeleteRange s.songs q (q + 1) with e | r
      · rw [hd] at h; cases h
      · rw [hd] at h
        simp only [Except.map, Except.ok.injEq] at h
        obtain ⟨h1, h2, _⟩ := Prod.mk.injEq .. ▸ h
        obtain ⟨hr, hab, hbl⟩ := DeleteRange_ok hd
        intro p hp
        have ht : r.2 = q := by rw [hr]
        rw [← h1, hr]
        exact (delete_getElem? s.songs q (q + 1) hab hbl).1 p (by omega)
  | move a b d =>
    rw [runStore] at h
    rcases hd : MoveRange s.songs a b d with e | r
    · rw [hd] at h; cases h
    · rw [hd] at h
      simp only [Except.map, Except.ok.injEq] at h
      obtain ⟨h1, h2, _⟩ := Prod.mk.injEq .. ▸ h
      obtain ⟨hr, hab, hbl, hdle, _⟩ := MoveRange_ok hd
      intro p hp
      have ht : r.2 = min a d := by rw [hr]
      rw [← h1, hr]
      exact move_getElem?_lt hab hbl hdle p (by omega)
  | moveId id d =>
    rw [runStore] at h
    rcases hi : idToPosition s.songs id with _ | q
    · simp only [MoveId, hi] at h; cases h
    · simp only [MoveId, hi] at h
      rcases hd : MoveRange s.songs q (q + 1) d with e | r
      · rw [hd] at h; cases h
      · rw [hd] at h
        simp only [Except.map, Except.ok.injEq] at h
        obtain ⟨h1, h2, _⟩ := Prod.mk.injEq .. ▸ h
        obtain ⟨hr, hab, hbl, hdle, _⟩ := MoveRange_ok hd
        intro p hp
        have ht : r.2 = min q d := by rw [hr]
        rw [← h1, hr]
        exact move_getElem?_lt hab hbl hdle p (by omega)
  | swap i j =>
    rw [runStore] at h
    rcases hd : SwapPositions s.songs i j with e | r
    · rw [hd] at h; cases h
    · rw [hd] at h
      simp only [Except.map, Except.ok.injEq] at h
      obtain ⟨h1, h2, _⟩ := Prod.mk.injEq .. ▸ h
      obtain ⟨hr, hi2, hj2⟩ := SwapPositions_ok hd
      intro p hp
      have ht : r.2 = min i j := by rw [hr]
      rw [← h1, hr]
      exact swapList_getElem?_ne p (by omega) (by omega)
  | swapId a b =>
    rw [runStore] at h
    rcases ha : idToPosition s.songs a with _ | i
    · simp only [SwapIds, ha] at h; cases h
    · rcases hb : idToPosition s.songs b with _ | j
      · simp only [SwapIds, ha, hb] at h; cases h
      · simp only [SwapIds, ha, hb] at h
        rcases hd : SwapPositions s.songs i j with e | r
        · rw [hd] at h; cases h
        · rw [hd] at h
          simp only [Except.map, Except.ok.injEq] at h
          obtain ⟨h1, h2, _⟩ := Prod.mk.injEq .. ▸ h
          obtain ⟨hr, hi2, hj2⟩ := SwapPositions_ok hd
          intro p hp
          have ht : r.2 = min i j := by rw [hr]
          rw [← h1, hr]
          exact swapList_getElem?_ne p (by omega) (by omega)
  | prioRange a b p =>
    rw [runStore] at h
    rcases hd : SetPriorityRange s.songs a b p with e | r
    · rw [hd] at h; cases h
    · rw [hd] at h
      simp only [Except.map, Except.ok.injEq] at h
      obtain ⟨h1, h2, _⟩ := Prod.mk.injEq .. ▸ h
      obtain ⟨hr, hab, hbl⟩ := SetPriorityRange_ok hd
      intro q hq
      have ht : r.2 = a := by rw [hr]
      rw [← h1, hr]
      exact prio_getElem?_lt (by omega) (by omega)
  | prioId id p =>
    rw [runStore] at h
    rcases hi : idToPosition s.songs id with _ | q
    · simp only [SetPriorityId, hi] at h; cases h
    · simp only [SetPriorityId, hi] at h
      rcases hd : SetPriorityRange s.songs q (q + 1) p with e | r
      · rw [hd] at h; cases h
      · rw [hd] at h
        simp only [Except.map, Except.ok.injEq] at h
        obtain ⟨h1, h2, _⟩ := Prod.mk.injEq .. ▸ h
        obtain ⟨hr, hab, hbl⟩ := SetPriorityRange_ok hd
        intro q2 hq2
        have ht : r.2 = q := by rw [hr]
        rw [← h1, hr]
        exact prio_getElem?_lt (by omega) (by omega)
  | shuffle rng a b =>
    rw [runStore] at h
    simp only [ShuffleRange, Except.ok.injEq] at h
    obtain ⟨h1, h2, _⟩ := Prod.mk.injEq .. ▸ h
    intro p hp
    rw [← h1]
    apply fyShuffle_getElem?_outside
    left
    omega
  | clear =>
    rw [runStore] at h
    simp only [Except.ok.injEq] at h
    obtain ⟨h1, h2, _⟩ := Prod.mk.injEq .. ▸ h
    intro p hp
    omega

/-! ### Priority bounds through the store -/

/-- The priority argument carried by a mutation is protocol-bounded; the
`prio`/`prioid` handlers establish this before calling the store. -/
def mutPrioOk : Mut → Prop
  | .prioRange _ _ p => p ≤ 255
  | .prioId _ p => p ≤ 255
  | _ => True

theorem runStore_prioBound {s : Facade} {m : Mut} {l2 : Songs} {t nid : Nat}
    (hP : ∀ e ∈ s.songs, e.prio ≤ 255) (hm : mutPrioOk m)
    (h : runStore s m = .ok (l2, t, nid)) :
    ∀ e ∈ l2, e.prio ≤ 255 := by
  cases m with
  | append song =>
    obtain ⟨hr, _⟩ := InsertSong_ok h
    cases hr
    intro e he
    rw [insertAtPos, List.mem_append, List.mem_cons] at he
    rcases he with he | he | he
    · exact hP e (List.mem_of_mem_take he)
    · rw [he]
      exact Nat.zero_le 255
    · exact hP e (List.mem_of_mem_drop he)
  | insert idx song =>
    obtain ⟨hr, _⟩ := InsertSong_ok h
    cases hr
    intro e he
    rw [insertAtPos, List.mem_append, List.mem_cons] at he
    rcases he with he | he | he
    · exact hP e (List.mem_of_mem_take he)
    · rw [he]
      exact Nat.zero_le 255
    · exact hP e (List.mem_of_mem_drop he)
  | delete a b =>
    rw [runStore] at h
    rcases hd : DeleteRange s.songs a b with e | r
    · rw [hd] at h; cases h
    · rw [hd] at h
      simp only [Except.map, Except.ok.injEq] at h
      obtain ⟨h1, _, _⟩ := Prod.mk.injEq .. ▸ h
      obtain ⟨hr, hab, hbl⟩ := DeleteRange_ok hd
      intro e he
      rw [← h1, hr] at he
      rcases List.mem_append.mp he with he | he
      · exact hP e (List.mem_of_mem_take he)
      · exact hP e (List.mem_of_mem_drop he)
  | deleteId id =>
    rw [runStore] at h
    rcases hi : idToPosition s.songs id with _ | q
    · simp only [DeleteId, hi] at h; cases h
    · simp only [DeleteId, hi] at h
      rcases hd : DeleteRange s.songs q (q + 1) with e | r
      · rw [hd] at h; cases h
      · rw [hd] at h
        simp only [Except.map, Except.ok.injEq] at h
        obtain ⟨h1, _, _⟩ := Prod.mk.injEq .. ▸ h
        obtain ⟨hr, hab, hbl⟩ := DeleteRange_ok hd
        intro e he
        rw [← h1, hr] at he
        rcases List.mem_append.mp he with he | he
        · exact hP e (List.mem_of_mem_take he)
        · exact hP e (List.mem_of_mem_drop he)
  | move a b d =>
    rw [runStore] at h
    rcases hd : MoveRange s.songs a b d with e | r
    · rw [hd] at h; cases h
    · rw [hd] at h
      simp only [Except.map, Except.ok.injEq] at h
      obtain ⟨h1, _, _⟩ := Prod.mk.injEq .. ▸ h
      obtain ⟨hr, hab, hbl, _, _⟩ := MoveRange_ok hd
      have hperm : r.1 ~ s.songs := by
        rw [hr]
        have hs := splice_perm (s.songs.take a) ((s.songs.drop a).take (b - a))
          (s.songs.drop b) d
        have hid := take_mid_drop a b s.songs hab
        exact hs.trans (by rw [hid])
      intro e he
      rw [← h1] at he
      exact hP e (hperm.subset he)
  | moveId id d =>
    rw [runStore] at h
    rcases hi : idToPosition s.songs id with _ | q
    · simp only [MoveId, hi] at h; cases h
    · simp only [MoveId, hi] at h
      rcases hd : MoveRange s.songs q (q + 1) d with e | r
      · rw [hd] at h; cases h
      · rw [hd] at h
        simp only [Except.map, Except.ok.injEq] at h
        obtain ⟨h1, _, _⟩ := Prod.mk.injEq .. ▸ h
        obtain ⟨hr, hab, hbl, _, _⟩ := MoveRange_ok hd
        have hperm : r.1 ~ s.songs := by
          rw [hr]
          have hs := splice_perm (s.songs.take q) ((s.songs.drop q).take (q + 1 - q))
            (s.songs.drop (q + 1)) d
          have hid := take_mid_drop q (q + 1) s.songs hab
          exact hs.trans (by rw [hid])
        intro e he
        rw [← h1] at he
        exact hP e (hperm.subset he)
  | swap i j =>
    rw [runStore] at h
    rcases hd : SwapPositions s.songs i j with e | r
    · rw [hd] at h; cases h
    · rw [hd] at h
      simp only [Except.map, Except.ok.injEq] at h
      obtain ⟨h1, _, _⟩ := Prod.mk.injEq .. ▸ h
      obtain ⟨hr, hi2, hj2⟩ := SwapPositions_ok hd
      intro e he
      rw [← h1, hr] at he
      exact hP e ((swapList_perm hi2 hj2).subset he)
  | swapId a b =>
    rw [runStore] at h
    rcases ha : idToPosition s.songs a with _ | i
    · simp only [SwapIds, ha] at h; cases h
    · rcases hb : idToPosition s.songs b with _ | j
      · simp only [SwapIds, ha, hb] at h; cases h
      · simp only [SwapIds, ha, hb] at h
        rcases hd : SwapPositions s.songs i j with e | r
        · rw [hd] at h; cases h
        · rw [hd] at h
          simp only [Except.map, Except.ok.injEq] at h
          obtain ⟨h1, _, _⟩ := Prod.mk.injEq .. ▸ h
          obtain ⟨hr, hi2, hj2⟩ := SwapPositions_ok hd
          intro e he
          rw [← h1, hr] at he
          exact hP e ((swapList_perm hi2 hj2).subset he)
  | prioRange a b p =>
    rw [runStore] at h
    rcases hd : SetPriorityRange s.songs a b p with e | r
    · rw [hd] at h; cases h
    · rw [hd] at h
      simp only [Except.map, Except.ok.injEq] at h
      obtain ⟨h1, _, _⟩ := Prod.mk.injEq .. ▸ h
      obtain ⟨hr, hab, hbl⟩ := SetPriorityRange_ok hd
      have hm2 : p ≤ 255 := hm
      intro e he
      rw [← h1, hr] at he
      rcases List.mem_append.mp he with he | he
      · rcases List.mem_append.mp he with he | he
        · exact hP e (List.mem_of_mem_take he)
        · rcases List.mem_map.mp he with ⟨e0, _, hmap⟩
          rw [← hmap]
          exact hm2
      · exact hP e (List.mem_of_mem_drop he)
  | prioId id p =>
    rw [runStore] at h
    rcases hi : idToPosition s.songs id with _ | q
    · simp only [SetPriorityId, hi] at h; cases h
    · simp only [SetPriorityId, hi] at h
      rcases hd : SetPriorityRange s.songs q (q + 1) p with e | r
      · rw [hd] at h; cases h
      · rw [hd] at h
        simp only [Except.map, Except.ok.injEq] at h
        obtain ⟨h1, _, _⟩ := Prod.mk.injEq .. ▸ h
        obtain ⟨hr, hab, hbl⟩ := SetPriorityRange_ok hd
        have hm2 : p ≤ 255 := hm
        intro e he
        rw [← h1, hr] at he
        rcases List.mem_append.mp he with he | he
        · rcases List.mem_append.mp he with he | he
          · exact hP e (List.mem_of_mem_take he)
          · rcases List.mem_map.mp he with ⟨e0, _, hmap⟩
            rw [← hmap]
            exact hm2
        · exact hP e (List.mem_of_mem_drop he)
  | shuffle rng a b =>
    rw [runStore] at h
    simp only [ShuffleRange, Except.ok.injEq] at h
    obtain ⟨h1, _, _⟩ := Prod.mk.injEq .. ▸ h
    have hperm : fyShuffle rng (min a (min b s.songs.length))
        (min b s.songs.length - min a (min b s.songs.length)) s.songs ~ s.songs := by
      apply fyShuffle_perm
      omega
    intro e he
    rw [← h1] at he
    exact hP e (hperm.subset he)
  | clear =>
    rw [runStore] at h
    simp only [Except.ok.injEq] at h
    obtain ⟨h1, _, _⟩ := Prod.mk.injEq .. ▸ h
    intro e he
    rw [← h1] at he
    cases he

/-! ### Facade-level single-mutation lemmas -/

/-- A failing mutation leaves the entire facade state (Entry Store, Version
Ledger, Random Order Engine, Bulk Edit Scope) exactly as it was. -/
theorem applyMut_error {s : Facade} {m : Mut} {s2 : Facade} {e : Err}
    (h : applyMut s m = (s2, some e)) : s2 = s := by
  rcases hr : runStore s m with e2 | r
  · simp only [applyMut, hr] at h
    injection h with h1 _
    exact h1.symm
  · simp only [applyMut, hr] at h
    by_cases hb : s.bulkDepth = 0
    · rw [if_pos hb] at h
      injection h with _ h2
      cases h2
    · rw [if_neg hb] at h
      injection h with _ h2
      cases h2

/-- Characterization of a successful facade mutation. -/
theorem applyMut_ok {s : Facade} {m : Mut} {s2 : Facade} (h : applyMut s m = (s2, none)) :
    ∃ l2 t nid, runStore s m = .ok (l2, t, nid) ∧
      s2.songs = stampFrom t (s.version + 1) l2 ∧
      s2.nextId = nid ∧
      s2.floor = min s.floor t ∧
      s2.order = none ∧
      s2.maxLen = s.maxLen ∧
      ((s.bulkDepth = 0 ∧ s2.version = s.version + 1 ∧ s2.bulkDepth = s.bulkDepth ∧
        s2.bulkPending = s.bulkPending) ∨
       (s.bulkDepth ≠ 0 ∧ s2.version = s.version ∧ s2.bulkDepth = s.bulkDepth ∧
        s2.bulkPending = true)) := by
  rcases hr : runStore s m with e | r
  · simp only [applyMut, hr] at h
    injection h with _ h2
    cases h2
  · simp only [applyMut, hr] at h
    obtain ⟨l2, t, nid⟩ := r
    by_cases hb : s.bulkDepth = 0
    · rw [if_pos hb] at h
      injection h with h1 _
      refine ⟨l2, t, nid, rfl, ?_⟩
      rw [← h1]
      exact ⟨rfl, rfl, rfl, rfl, rfl, Or.inl ⟨hb, rfl, rfl, rfl⟩⟩
    · rw [if_neg hb] at h
      injection h with h1 _
      refine ⟨l2, t, nid, rfl, ?_⟩
      rw [← h1]
      exact ⟨rfl, rfl, rfl, rfl, rfl, Or.inr ⟨hb, rfl, rfl, rfl⟩⟩

/-! ### Composable step facts -/

/-- One mutation step only lowers the ledger floor, and every position strictly
below the new floor is unchanged. -/
def FloorStep (s s2 : Facade) : Prop :=
  s2.floor ≤ s.floor ∧ ∀ p, p < s2.floor → s2.songs[p]? = s.songs[p]?

theorem floorStep_refl (s : Facade) : FloorStep s s :=
  ⟨Nat.le_refl _, fun _ _ => rfl⟩

theorem floorStep_trans {s1 s2 s3 : Facade} (h1 : FloorStep s1 s2) (h2 : FloorStep s2 s3) :
    FloorStep s1 s3 := by
  obtain ⟨h1a, h1b⟩ := h1
  obtain ⟨h2a, h2b⟩ := h2
  refine ⟨Nat.le_trans h2a h1a, fun p hp => ?_⟩
  rw [h2b p hp, h1b p (by omega)]

theorem applyMut_floorStep {s : Facade} {m : Mut} {s2 : Facade} {r : Option Err}
    (h : applyMut s m = (s2, r)) : FloorStep s s2 := by
  cases r with
  | some e => rw [applyMut_error h]; exact floorStep_refl s
  | none =>
    obtain ⟨l2, t, nid, hr, hsongs, _, hfloor, _, _, _⟩ := applyMut_ok h
    constructor
    · rw [hfloor]
      exact Nat.min_le_left _ _
    · intro p hp
      rw [hfloor] at hp
      rw [hsongs, stampFrom_getElem?_lt (by omega)]
      exact runStore_frame hr p (by omega)

theorem applyMut_storeInv {s : Facade} {m : Mut} {s2 : Facade} {r : Option Err}
    (hI : StoreInv s) (h : applyMut s m = (s2, r)) : StoreInv s2 := by
  cases r with
  | some e => rw [applyMut_error h]; exact hI
  | none =>
    obtain ⟨l2, t, nid, hr, hsongs, hnid, _, _, _, _⟩ := applyMut_ok h
    constructor
    · rw [hsongs, stampFrom_map_id]
      rcases runStore_ids hr with ⟨hperm, _⟩ | ⟨hsub, _⟩
      · apply hperm.symm.nodup
        rw [List.nodup_cons]
        refine ⟨fun hmem => ?_, hI.1⟩
        rcases List.mem_map.mp hmem with ⟨e0, he0, hid⟩
        have := hI.2 e0 he0
        omega
      · exact subperm_nodup hsub hI.1
    · intro e he
      rw [hsongs] at he
      obtain ⟨e0, he0, hid, _, _⟩ := mem_stampFrom he
      have hmem : e0.id ∈ l2.map Entry.id := List.mem_map.mpr ⟨e0, he0, rfl⟩
      rw [hnid, hid]
      rcases runStore_ids hr with ⟨hperm, hnid2⟩ | ⟨hsub, hnid2⟩
      · have hin := hperm.subset hmem
        rcases List.mem_cons.mp hin with h1 | h1
        · omega
        · rcases List.mem_map.mp h1 with ⟨e1, he1, hid1⟩
          have := hI.2 e1 he1
          omega
      · have hin := hsub.subset hmem
        rcases List.mem_map.mp hin with ⟨e1, he1, hid1⟩
        have := hI.2 e1 he1
        omega

theorem applyMut_prioInv {s : Facade} {m : Mut} {s2 : Facade} {r : Option Err}
    (hP : PrioInv s) (hm : mutPrioOk m) (h : applyMut s m = (s2, r)) : PrioInv s2 := by
  cases r with
  | some e => rw [applyMut_error h]; exact hP
  | none =>
    obtain ⟨l2, t, nid, hr, hsongs, _, _, _, _, _⟩ := applyMut_ok h
    intro e he
    rw [hsongs] at he
    obtain ⟨e0, he0, _, hprio, _⟩ := mem_stampFrom he
    rw [hprio]
    exact runStore_prioBound hP hm hr e0 he0

theorem applyMut_depth0_version {s : Facade} {m : Mut} {s2 : Facade}
    (hb : s.bulkDepth = 0) (h : applyMut s m = (s2, none)) :
    s2.version = s.version + 1 := by
  obtain ⟨_, _, _, _, _, _, _, _, _, hd⟩ := applyMut_ok h
  rcases hd with ⟨_, hv, _, _⟩ | ⟨hb2, _, _, _⟩
  · exact hv
  · exact absurd hb hb2

theorem applyMut_inBulk {s : Facade} {m : Mut} {s2 : Facade} {r : Option Err}
    (hb : s.bulkDepth ≠ 0) (h : applyMut s m = (s2, r)) :
    s2.version = s.version ∧ s2.bulkDepth = s.bulkDepth ∧
      (s.bulkPending = true → s2.bulkPending = true) ∧
      (r = none → s2.bulkPending = true) := by
  cases r with
  | some e =>
    rw [applyMut_error h]
    exact ⟨rfl, rfl, fun h2 => h2, fun h2 => nomatch h2⟩
  | none =>
    obtain ⟨_, _, _, _, _, _, _, _, _, hd⟩ := applyMut_ok h
    rcases hd with ⟨hb2, _, _, _⟩ | ⟨_, hv, hdep, hpend⟩
    · exact absurd hb2 hb
    · exact ⟨hv, hdep, fun _ => hpend, fun _ => hpend⟩

/-! ### Folding mutation lists -/

theorem applyMuts_floorStep :
    ∀ (ms : List Mut) (s s2 : Facade) (r : Option Err),
      applyMuts s ms = (s2, r) → FloorStep s s2 := by
  intro ms
  induction ms with
  | nil =>
    intro s s2 r h
    rw [applyMuts] at h
    injection h with h1 _
    rw [← h1]
    exact floorStep_refl s
  | cons m ms ih =>
    intro s s2 r h
    rw [applyMuts] at h
    rcases ha : applyMut s m with ⟨s1, r1⟩
    cases r1 with
    | none =>
      simp only [ha] at h
      exact floorStep_trans (applyMut_floorStep ha) (ih _ _ _ h)
    | some e =>
      simp only [ha] at h
      injection h with h1 _
      rw [← h1]
      exact applyMut_floorStep ha

theorem applyMuts_storeInv :
    ∀ (ms : List Mut) (s s2 : Facade) (r : Option Err),
      StoreInv s → applyMuts s ms = (s2, r) → StoreInv s2 := by
  intro ms
  induction ms with
  | nil =>
    intro s s2 r hI h
    rw [applyMuts] at h
    injection h with h1 _
    rw [← h1]
    exact hI
  | cons m ms ih =>
    intro s s2 r hI h
    rw [applyMuts] at h
    rcases ha : applyMut s m with ⟨s1, r1⟩
    cases r1 with
    | none =>
      simp only [ha] at h
      exact ih _ _ _ (applyMut_storeInv hI ha) h
    | some e =>
      simp only [ha] at h
      injection h with h1 _
      rw [← h1]
      exact applyMut_storeInv hI ha

theorem applyMuts_prioInv :
    ∀ (ms : List Mut) (s s2 : Facade) (r : Option Err),
      PrioInv s → (∀ m ∈ ms, mutPrioOk m) → applyMuts s ms = (s2, r) → PrioInv s2 := by
  intro ms
  induction ms with
  | nil =>
    intro s s2 r hP _ h
    rw [applyMuts] at h
    injection h with h1 _
    rw [← h1]
    exact hP
  | cons m ms ih =>
    intro s s2 r hP hok h
    rw [applyMuts] at h
    rcases ha : applyMut s m with ⟨s1, r1⟩
    cases r1 with
    | none =>
      simp only [ha] at h
      exact ih _ _ _ (applyMut_prioInv hP (hok m (List.mem_cons_self m ms)) ha)
        (fun m2 hm2 => hok m2 (List.mem_cons_of_mem m hm2)) h
    | some e =>
      simp only [ha] at h
      injection h with h1 _
      rw [← h1]
      exact applyMut_prioInv hP (hok m (List.mem_cons_self m ms)) ha

theorem applyMuts_inBulk :
    ∀ (ms : List Mut) (s s2 : Facade) (r : Option Err),
      s.bulkDepth ≠ 0 → applyMuts s ms = (s2, r) →
      s2.version = s.version ∧ s2.bulkDepth = s.bulkDepth ∧
        (s.bulkPending = true → s2.bulkPending = true) ∧
        (r = none → ms ≠ [] → s2.bulkPending = true) := by
  intro ms
  induction ms with
  | nil =>
    intro s s2 r hb h
    rw [applyMuts] at h
    injection h with h1 _
    rw [← h1]
    exact ⟨rfl, rfl, fun h2 => h2, fun _ h2 => absurd rfl h2⟩
  | cons m ms ih =>
    intro s s2 r hb h
    rw [applyMuts] at h
    rcases ha : applyMut s m with ⟨s1, r1⟩
    have hstep := applyMut_inBulk hb ha
    cases r1 with
    | none =>
      simp only [ha] at h
      have hb1 : s1.bulkDepth ≠ 0 := by rw [hstep.2.1]; exact hb
      have hrec := ih s1 s2 r hb1 h
      refine ⟨by rw [hrec.1, hstep.1], by rw [hrec.2.1, hstep.2.1], ?_, ?_⟩
      · intro hp
        exact hrec.2.2.1 (hstep.2.2.1 hp)
      · intro _ _
        exact hrec.2.2.1 (hstep.2.2.2 rfl)
    | some e =>
      simp only [ha] at h
      injection h with h1 h2
      rw [← h1]
      exact ⟨hstep.1, hstep.2.1, hstep.2.2.1, fun hn => by rw [← h2] at hn; cases hn⟩

/-! ### Bulk scope boundaries -/

theorem beginBulk_floorStep (s : Facade) : FloorStep s (beginBulk s) :=
  ⟨Nat.le_refl _, fun _ _ => rfl⟩

theorem endBulk_floorStep (s : Facade) : FloorStep s (endBulk s) := by
  rw [endBulk]
  split
  · exact ⟨Nat.le_refl _, fun _ _ => rfl⟩
  · exact ⟨Nat.le_refl _, fun _ _ => rfl⟩

theorem storeInv_beginBulk {s : Facade} (h : StoreInv s) : StoreInv (beginBulk s) := h

theorem storeInv_endBulk {s : Facade} (h : StoreInv s) : StoreInv (endBulk s) := by
  rw [endBulk]
  split <;> exact h

theorem prioInv_beginBulk {s : Facade} (h : PrioInv s) : PrioInv (beginBulk s) := h

theorem prioInv_endBulk {s : Facade} (h : PrioInv s) : PrioInv (endBulk s) := by
  rw [endBulk]
  split <;> exact h

/-! ### Command-level lemmas -/

theorem applyCmd_floorStep {env : Env} {s : Facade} {c : Cmd} {s2 : Facade} {r : Option Err}
    (h : applyCmd env s c = (s2, r)) : FloorStep s s2 := by
  cases c with
  | add uri =>
    simp only [applyCmd] at h
    rcases hA : applyMuts (beginBulk s)
        ((env.database (translateAddUri uri)).map Mut.append) with ⟨sA, rA⟩
    rw [hA] at h
    injection h with h1 _
    rw [← h1]
    exact floorStep_trans (beginBulk_floorStep s)
      (floorStep_trans (applyMuts_floorStep _ _ _ _ hA) (endBulk_floorStep sA))
  | addId uri dest =>
    simp only [applyCmd] at h
    rcases h1 : applyMut s (.append (env.loader (translateAddUri uri))) with ⟨sa, ra⟩
    simp only [h1] at h
    cases ra with
    | some e =>
      injection h with hh _
      rw [← hh]
      exact applyMut_floorStep h1
    | none =>
      cases dest with
      | none =>
        injection h with hh _
        rw [← hh]
        exact applyMut_floorStep h1
      | some t =>
        rcases h2 : applyMut sa (.moveId s.nextId t) with ⟨sb, rb⟩
        simp only [h2] at h
        cases rb with
        | none =>
          injection h with hh _
          rw [← hh]
          exact floorStep_trans (applyMut_floorStep h1) (applyMut_floorStep h2)
        | some e =>
          rcases h3 : applyMut sb (.deleteId s.nextId) with ⟨sc, rc⟩
          have hred : ((applyMut sb (Mut.deleteId s.nextId)).1, some e) = (s2, r) := h
          rw [h3] at hred
          injection hred with hh _
          rw [← hh]
          exact floorStep_trans (applyMut_floorStep h1)
            (floorStep_trans (applyMut_floorStep h2) (applyMut_floorStep h3))
  | delete a b =>
    simp only [applyCmd] at h
    exact applyMut_floorStep h
  | deleteId id =>
    simp only [applyCmd] at h
    exact applyMut_floorStep h
  | move a b d =>
    simp only [applyCmd] at h
    exact applyMut_floorStep h
  | moveId id d =>
    simp only [applyCmd] at h
    exact applyMut_floorStep h
  | swap i j =>
    simp only [applyCmd] at h
    exact applyMut_floorStep h
  | swapId a b =>
    simp only [applyCmd] at h
    exact applyMut_floorStep h
  | shuffle rng a b =>
    simp only [applyCmd] at h
    exact applyMut_floorStep h
  | clear =>
    simp only [applyCmd] at h
    exact applyMut_floorStep h
  | prio p ranges =>
    simp only [applyCmd] at h
    by_cases hp : 255 < p
    · rw [if_pos hp] at h
      injection h with h1 _
      rw [← h1]
      exact floorStep_refl s
    · rw [if_neg hp] at h
      exact applyMuts_floorStep _ _ _ _ h
  | prioId p ids =>
    simp only [applyCmd] at h
    by_cases hp : 255 < p
    · rw [if_pos hp] at h
      injection h with h1 _
      rw [← h1]
      exact floorStep_refl s
    · rw [if_neg hp] at h
      exact applyMuts_floorStep _ _ _ _ h

theorem applyCmd_storeInv {env : Env} {s : Facade} {c : Cmd} {s2 : Facade} {r : Option Err}
    (hI : StoreInv s) (h : applyCmd env s c = (s2, r)) : StoreInv s2 := by
  cases c with
  | add uri =>
    simp only [applyCmd] at h
    rcases hA : applyMuts (beginBulk s)
        ((env.database (translateAddUri uri)).map Mut.append) with ⟨sA, rA⟩
    rw [hA] at h
    injection h with h1 _
    rw [← h1]
    exact storeInv_endBulk (applyMuts_storeInv _ _ _ _ (storeInv_beginBulk hI) hA)
  | addId uri dest =>
    simp only [applyCmd] at h
    rcases h1 : applyMut s (.append (env.loader (translateAddUri uri))) with ⟨sa, ra⟩
    simp only [h1] at h
    cases ra with
    | some e =>
      injection h with hh _
      rw [← hh]
      exact applyMut_storeInv hI h1
    | none =>
      cases dest with
      | none =>
        injection h with hh _
        rw [← hh]
        exact applyMut_storeInv hI h1
      | some t =>
        rcases h2 : applyMut sa (.moveId s.nextId t) with ⟨sb, rb⟩
        simp only [h2] at h
        cases rb with
        | none =>
          injection h with hh _
          rw [← hh]
          exact applyMut_storeInv (applyMut_storeInv hI h1) h2
        | some e =>
          rcases h3 : applyMut sb (.deleteId s.nextId) with ⟨sc, rc⟩
          have hred : ((applyMut sb (Mut.deleteId s.nextId)).1, some e) = (s2, r) := h
          rw [h3] at hred
          injection hred with hh _
          rw [← hh]
          exact applyMut_storeInv (applyMut_storeInv (applyMut_storeInv hI h1) h2) h3
  | delete a b =>
    simp only [applyCmd] at h
    exact applyMut_storeInv hI h
  | deleteId id =>
    simp only [applyCmd] at h
    exact applyMut_storeInv hI h
  | move a b d =>
    simp only [applyCmd] at h
    exact applyMut_storeInv hI h
  | moveId id d =>
    simp only [applyCmd] at h
    exact applyMut_storeInv hI h
  | swap i j =>
    simp only [applyCmd] at h
    exact applyMut_storeInv hI h
  | swapId a b =>
    simp only [applyCmd] at h
    exact applyMut_storeInv hI h
  | shuffle rng a b =>
    simp only [applyCmd] at h
    exact applyMut_storeInv hI h
  | clear =>
    simp only [applyCmd] at h
    exact applyMut_storeInv hI h
  | prio p ranges =>
    simp only [applyCmd] at h
    by_cases hp : 255 < p
    · rw [if_pos hp] at h
      injection h with h1 _
      rw [← h1]
      exact hI
    · rw [if_neg hp] at h
      exact applyMuts_storeInv _ _ _ _ hI h
  | prioId p ids =>
    simp only [applyCmd] at h
    by_cases hp : 255 < p
    · rw [if_pos hp] at h
      injection h with h1 _
      rw [← h1]
      exact hI
    · rw [if_neg hp] at h
      exact applyMuts_storeInv _ _ _ _ hI h

theorem applyCmd_prioInv {env : Env} {s : Facade} {c : Cmd} {s2 : Facade} {r : Option Err}
    (hP : PrioInv s) (h : applyCmd env s c = (s2, r)) : PrioInv s2 := by
  cases c with
  | add uri =>
    simp only [applyCmd] at h
    rcases hA : applyMuts (beginBulk s)
        ((env.database (translateAddUri uri)).map Mut.append) with ⟨sA, rA⟩
    rw [hA] at h
    injection h with h1 _
    rw [← h1]
    refine prioInv_endBulk (applyMuts_prioInv _ _ _ _ (prioInv_beginBulk hP) ?_ hA)
    intro m hm
    rcases List.mem_map.mp hm with ⟨song, _, hmap⟩
    rw [← hmap]
    trivial
  | addId uri dest =>
    simp only [applyCmd] at h
    rcases h1 : applyMut s (.append (env.loader (translateAddUri uri))) with ⟨sa, ra⟩
    simp only [h1] at h
    cases ra with
    | some e =>
      injection h with hh _
      rw [← hh]
      exact applyMut_prioInv hP (by trivial) h1
    | none =>
      cases dest with
      | none =>
        injection h with hh _
        rw [← hh]
        exact applyMut_prioInv hP (by trivial) h1
      | some t =>
        rcases h2 : applyMut sa (.moveId s.nextId t) with ⟨sb, rb⟩
        simp only [h2] at h
        cases rb with
        | none =>
          injection h with hh _
          rw [← hh]
          exact applyMut_prioInv (applyMut_prioInv hP (by trivial) h1) (by trivial) h2
        | some e =>
          rcases h3 : applyMut sb (.deleteId s.nextId) with ⟨sc, rc⟩
          have hred : ((applyMut sb (Mut.deleteId s.nextId)).1, some e) = (s2, r) := h
          rw [h3] at hred
          injection hred with hh _
          rw [← hh]
          exact applyMut_prioInv
            (applyMut_prioInv (applyMut_prioInv hP (by trivial) h1) (by trivial) h2) (by trivial) h3
  | delete a b =>
    simp only [applyCmd] at h
    exact applyMut_prioInv hP (by trivial) h
  | deleteId id =>
    simp only [applyCmd] at h
    exact applyMut_prioInv hP (by trivial) h
  | move a b d =>
    simp only [applyCmd] at h
    exact applyMut_prioInv hP (by trivial) h
  | moveId id d =>
    simp only [applyCmd] at h
    exact applyMut_prioInv hP (by trivial) h
  | swap i j =>
    simp only [applyCmd] at h
    exact applyMut_prioInv hP (by trivial) h
  | swapId a b =>
    simp only [applyCmd] at h
    exact applyMut_prioInv hP (by trivial) h
  | shuffle rng a b =>
    simp only [applyCmd] at h
    exact applyMut_prioInv hP (by trivial) h
  | clear =>
    simp only [applyCmd] at h
    exact applyMut_prioInv hP (by trivial) h
  | prio p ranges =>
    simp only [applyCmd] at h
    by_cases hp : 255 < p
    · rw [if_pos hp] at h
      injection h with h1 _
      rw [← h1]
      exact hP
    · rw [if_neg hp] at h
      refine applyMuts_prioInv _ _ _ _ hP ?_ h
      intro m hm
      rcases List.mem_map.mp hm with ⟨rg, _, hmap⟩
      rw [← hmap]
      show p ≤ 255
      omega
  | prioId p ids =>
    simp only [applyCmd] at h
    by_cases hp : 255 < p
    · rw [if_pos hp] at h
      injection h with h1 _
      rw [← h1]
      exact hP
    · rw [if_neg hp] at h
      refine applyMuts_prioInv _ _ _ _ hP ?_ h
      intro m hm
      rcases List.mem_map.mp hm with ⟨id, _, hmap⟩
      rw [← hmap]
      show p ≤ 255
      omega

/-! ### Reachability invariants -/

theorem reach_storeInv {s : Facade} (h : Reach s) : StoreInv s := by
  induction h with
  | init maxLen =>
    exact ⟨List.nodup_nil, fun e he => nomatch he⟩
  | step env c hs ih =>
    rename_i s0
    rcases hC : applyCmd env s0 c with ⟨s2, r⟩
    exact applyCmd_storeInv ih hC

theorem reach_prioInv {s : Facade} (h : Reach s) : PrioInv s := by
  induction h with
  | init maxLen =>
    exact fun e he => nomatch he
  | step env c hs ih =>
    rename_i s0
    rcases hC : applyCmd env s0 c with ⟨s2, r⟩
    exact applyCmd_prioInv ih hC

theorem applyCmds_floorStep :
    ∀ (ecs : List (Env × Cmd)) (s : Facade), FloorStep s (applyCmds s ecs) := by
  intro ecs
  induction ecs with
  | nil => intro s; exact floorStep_refl s
  | cons ec ecs ih =>
    intro s
    rw [applyCmds]
    rcases hC : applyCmd ec.1 s ec.2 with ⟨s1, r⟩
    exact floorStep_trans (applyCmd_floorStep hC) (ih s1)

/-! ### Diff query membership -/

theorem diffSince_mem_iff {s : Facade} {v a b p : Nat} {e : Entry} :
    (p, e) ∈ diffSince s v a b ↔
      (s.songs[p]? = some e ∧ a ≤ p ∧ p < b ∧ (s.floor ≤ p ∨ v < e.version)) := by
  rw [diffSince, List.mem_filterMap]
  constructor
  · rintro ⟨q, hq, hmap⟩
    rcases hsq : s.songs[q]? with _ | e2
    · simp only [hsq] at hmap
      cases hmap
    · simp only [hsq] at hmap
      by_cases hc : a ≤ q ∧ q < b ∧ (s.floor ≤ q ∨ v < e2.version)
      · rw [if_pos hc] at hmap
        injection hmap with hpair
        obtain ⟨hq1, hq2⟩ := Prod.mk.injEq .. ▸ hpair
        subst hq1
        subst hq2
        exact ⟨hsq, hc.1, hc.2.1, hc.2.2⟩
      · rw [if_neg hc] at hmap; cases hmap
  · rintro ⟨hsome, h1, h2, h3⟩
    have hlt : p < s.songs.length := by
      by_contra hcon
      rw [List.getElem?_eq_none (by omega)] at hsome
      cases hsome
    refine ⟨p, List.mem_range.mpr hlt, ?_⟩
    simp only [hsome]
    rw [if_pos ⟨h1, h2, h3⟩]

/-! ### Dual-index round trips -/

theorem nodup_id_ne {l : Songs} (hnd : (l.map Entry.id).Nodup) {i j : Nat}
    (hi : i < l.length) (hj : j < l.length) (hij : i ≠ j) :
    (l.get ⟨i, hi⟩).id ≠ (l.get ⟨j, hj⟩).id := by
  intro heq
  have hinj := List.nodup_iff_injective_getElem.mp hnd
  have hilen : i < (l.map Entry.id).length := by simpa using hi
  have hjlen : j < (l.map Entry.id).length := by simpa using hj
  have hmapeq : (fun k : Fin (l.map Entry.id).length => (l.map Entry.id)[k.1]) ⟨i, hilen⟩ =
      (fun k : Fin (l.map Entry.id).length => (l.map Entry.id)[k.1]) ⟨j, hjlen⟩ := by
    simp only [List.getElem_map]
    exact heq
  have := hinj hmapeq
  exact hij (congrArg Fin.val this)

theorem idToPosition_getElem {l : Songs} (hnd : (l.map Entry.id).Nodup) (i : Nat)
    (hi : i < l.length) : idToPosition l (l.get ⟨i, hi⟩).id = some i := by
  rw [idToPosition, List.findIdx?_eq_some_iff_getElem]
  refine ⟨hi, ?_, ?_⟩
  · simp
  · intro j hji
    have hne := nodup_id_ne hnd (Nat.lt_trans hji hi) hi (Nat.ne_of_lt hji)
    simp only [List.get_eq_getElem] at hne
    simp [hne]

theorem positionOfId_getElem {l : Songs} (hnd : (l.map Entry.id).Nodup) (i : Nat)
    (hi : i < l.length) : l.findIdx (fun e => e.id == (l.get ⟨i, hi⟩).id) = i := by
  rw [List.findIdx_eq hi]
  refine ⟨by simp, ?_⟩
  intro j hji
  have hne := nodup_id_ne hnd (Nat.lt_trans hji hi) hi (Nat.ne_of_lt hji)
  simp only [List.get_eq_getElem] at hne
  simp [hne]

/-! ### Claim theorems -/

/-- C1: the queue version increases by exactly one per externally visible
mutation event: a successful mutating call outside a Bulk Edit Scope bumps the
version by exactly one, and a Bulk Edit Scope wrapping N ≥ 1 successful
mutations bumps it by exactly one over the whole scope, not N. -/
theorem C1_version_bump :
    (∀ (s : Facade) (m : Mut) (s2 : Facade),
      s.bulkDepth = 0 → applyMut s m = (s2, none) → s2.version = s.version + 1) ∧
    (∀ (s : Facade) (ms : List Mut) (s2 : Facade),
      s.bulkDepth = 0 → ms ≠ [] →
      applyMuts (beginBulk s) ms = (s2, none) →
      (endBulk s2).version = s.version + 1) := by
  constructor
  · intro s m s2 hb h
    exact applyMut_depth0_version hb h
  · intro s ms s2 hb hne h
    have hb1 : (beginBulk s).bulkDepth ≠ 0 := by
      simp [beginBulk]
    have hrec := applyMuts_inBulk ms (beginBulk s) s2 none hb1 h
    have hver : s2.version = s.version := hrec.1
    have hdep : s2.bulkDepth = s.bulkDepth + 1 := hrec.2.1
    have hpend : s2.bulkPending = true := hrec.2.2.2 rfl hne
    rw [endBulk, if_pos (by omega : s2.bulkDepth ≤ 1)]
    simp only [hpend, if_true]
    rw [hver]

theorem C1_version_bump_witness :
    (applyMut (initQueue 5) (.append 7)).1.version = (initQueue 5).version + 1 ∧
    (endBulk (applyMuts (beginBulk (initQueue 5)) [.append 1, .append 2, .append 3]).1).version =
      (initQueue 5).version + 1 :=
  ⟨C1_version_bump.1 (initQueue 5) (.append 7) _ rfl (by decide),
   C1_version_bump.2 (initQueue 5) [.append 1, .append 2, .append 3] _ rfl
     (List.cons_ne_nil _ _) (by decide)⟩

/-- C2: every facade mutation is atomic — on success the Entry Store invariants
hold afterward, and on failure the Entry Store, Version Ledger and Random Order
Engine state (the whole facade state) is exactly as before the call. -/
theorem C2_atomic_mutations (s : Facade) (m : Mut) (hI : StoreInv s) :
    (∀ s2, applyMut s m = (s2, none) → StoreInv s2) ∧
    (∀ s2 e, applyMut s m = (s2, some e) → s2 = s) :=
  ⟨fun _ h => applyMut_storeInv hI h, fun _ _ h => applyMut_error h⟩

theorem C2_atomic_mutations_witness :
    StoreInv (applyMuts (initQueue 4) [.append 5, .append 6]).1 ∧
    StoreInv (applyMut (applyMuts (initQueue 4) [.append 5, .append 6]).1 (.append 9)).1 ∧
    (applyMut (applyMuts (initQueue 4) [.append 5, .append 6]).1 (.delete 0 9)).1 =
      (applyMuts (initQueue 4) [.append 5, .append 6]).1 := by
  have hI : StoreInv (applyMuts (initQueue 4) [.append 5, .append 6]).1 := by
    unfold StoreInv
    decide
  refine ⟨hI, ?_, ?_⟩
  · exact (C2_atomic_mutations _ (.append 9) hI).1 _ (by decide)
  · exact (C2_atomic_mutations _ (.delete 0 9) hI).2 _ Err.invalidRange (by decide)

/-- C4: for every sequence of valid commands starting from the empty queue,
the present ids stay pairwise distinct and the positions derived through the
id index form exactly the dense range `[0, length)` (a dense permutation with
no gaps and no duplicates). -/
theorem C4_dense_positions {s : Facade} (h : Reach s) :
    (s.songs.map Entry.id).Nodup ∧
    s.songs.map (fun e => positionOfId s e.id) = List.range s.songs.length := by
  have hI := reach_storeInv h
  refine ⟨hI.1, ?_⟩
  apply List.ext_getElem
  · simp
  · intro i hi1 hi2
    have hi : i < s.songs.length := by simpa using hi1
    rw [List.getElem_map, List.getElem_range]
    have := positionOfId_getElem hI.1 i hi
    simp only [List.get_eq_getElem] at this
    exact this

theorem C4_dense_positions_witness :
    ((applyCmds (initQueue 4) [(⟨fun _ => [], fun _ => 3⟩, Cmd.addId "x" none),
        (⟨fun _ => [], fun _ => 4⟩, Cmd.addId "y" none)]).songs.map Entry.id).Nodup ∧
    (applyCmds (initQueue 4) [(⟨fun _ => [], fun _ => 3⟩, Cmd.addId "x" none),
        (⟨fun _ => [], fun _ => 4⟩, Cmd.addId "y" none)]).songs.map
        (fun e => positionOfId (applyCmds (initQueue 4)
          [(⟨fun _ => [], fun _ => 3⟩, Cmd.addId "x" none),
           (⟨fun _ => [], fun _ => 4⟩, Cmd.addId "y" none)]) e.id) =
      List.range (applyCmds (initQueue 4) [(⟨fun _ => [], fun _ => 3⟩, Cmd.addId "x" none),
        (⟨fun _ => [], fun _ => 4⟩, Cmd.addId "y" none)]).songs.length := by
  refine C4_dense_positions ?_
  exact Reach.step _ _ (Reach.step _ _ (Reach.init 4))

/-- C5: index round trip — for every reachable state and valid position `p`,
looking the entry up by position and resolving its id back through the id
index yields the same position and entry. -/
theorem C5_index_round_trip {s : Facade} (h : Reach s) (p : Nat)
    (hp : p < s.songs.length) :
    ∃ e, byPosition s p = some e ∧ byId s e.id = some (p, e) := by
  have hI := reach_storeInv h
  refine ⟨s.songs.get ⟨p, hp⟩, ?_, ?_⟩
  · rw [byPosition, List.getElem?_eq_getElem hp]
    simp
  · simp only [byId, idToPosition_getElem hI.1 p hp, List.getElem?_eq_getElem hp,
      Option.map_some]
    simp

theorem C5_index_round_trip_witness :
    ∃ e, byPosition (applyCmds (initQueue 4)
        [(⟨fun _ => [7, 8, 9], fun _ => 0⟩, Cmd.add "x")]) 1 = some e ∧
      byId (applyCmds (initQueue 4)
        [(⟨fun _ => [7, 8, 9], fun _ => 0⟩, Cmd.add "x")]) e.id = some (1, e) := by
  refine C5_index_round_trip ?_ 1 (by decide)
  exact Reach.step _ _ (Reach.init 4)

/-- C6: `remove_range(start, stop)` fails, with `InvalidRange`, exactly when
`start > stop` or `stop > length`; on success it removes precisely the
positions in `[start, stop)` and compacts the remaining positions (prefix
unchanged, tail shifted left by the removed count). -/
theorem C6_remove_range (l : Songs) (a b : Nat) :
    ((∃ e, DeleteRange l a b = .error e) ↔ (a > b ∨ b > l.length)) ∧
    (∀ e, DeleteRange l a b = .error e → e = Err.invalidRange) ∧
    (∀ res, DeleteRange l a b = .ok res →
      res.1.length = l.length - (b - a) ∧
      (∀ p, p < a → res.1[p]? = l[p]?) ∧
      (∀ p, a ≤ p → res.1[p]? = l[p + (b - a)]?)) := by
  refine ⟨⟨?_, ?_⟩, ?_, ?_⟩
  · rintro ⟨e, he⟩
    have := DeleteRange_error_iff.mp he
    omega
  · intro hc
    exact ⟨.invalidRange, DeleteRange_error_iff.mpr ⟨by omega, rfl⟩⟩
  · intro e he
    exact (DeleteRange_error_iff.mp he).2
  · intro res hres
    obtain ⟨hr, hab, hbl⟩ := DeleteRange_ok hres
    have hlen : res.1.length = l.length - (b - a) := by
      rw [hr]
      simp only [List.length_append, List.length_take, List.length_drop]
      omega
    refine ⟨hlen, ?_, ?_⟩
    · intro p hp
      rw [hr]
      exact (delete_getElem? l a b hab hbl).1 p hp
    · intro p hp
      rw [hr]
      exact (delete_getElem? l a b hab hbl).2 p hp

theorem C6_remove_range_witness :
    (∃ e, DeleteRange [⟨0, 5, 0, 0⟩, ⟨1, 6, 0, 0⟩, ⟨2, 7, 0, 0⟩] 1 4 = .error e) ∧
    (([⟨0, 5, 0, 0⟩, ⟨1, 6, 0, 0⟩, ⟨2, 7, 0, 0⟩] : Songs).take 1 ++
        ([⟨0, 5, 0, 0⟩, ⟨1, 6, 0, 0⟩, ⟨2, 7, 0, 0⟩] : Songs).drop 2).length =
      ([⟨0, 5, 0, 0⟩, ⟨1, 6, 0, 0⟩, ⟨2, 7, 0, 0⟩] : Songs).length - (2 - 1) ∧
    (([⟨0, 5, 0, 0⟩, ⟨1, 6, 0, 0⟩, ⟨2, 7, 0, 0⟩] : Songs).take 1 ++
        ([⟨0, 5, 0, 0⟩, ⟨1, 6, 0, 0⟩, ⟨2, 7, 0, 0⟩] : Songs).drop 2)[0]? =
      ([⟨0, 5, 0, 0⟩, ⟨1, 6, 0, 0⟩, ⟨2, 7, 0, 0⟩] : Songs)[0]? ∧
    (([⟨0, 5, 0, 0⟩, ⟨1, 6, 0, 0⟩, ⟨2, 7, 0, 0⟩] : Songs).take 1 ++
        ([⟨0, 5, 0, 0⟩, ⟨1, 6, 0, 0⟩, ⟨2, 7, 0, 0⟩] : Songs).drop 2)[1]? =
      ([⟨0, 5, 0, 0⟩, ⟨1, 6, 0, 0⟩, ⟨2, 7, 0, 0⟩] : Songs)[1 + (2 - 1)]? := by
  have h := (C6_remove_range [⟨0, 5, 0, 0⟩, ⟨1, 6, 0, 0⟩, ⟨2, 7, 0, 0⟩] 1 2).2.2
    (([⟨0, 5, 0, 0⟩, ⟨1, 6, 0, 0⟩, ⟨2, 7, 0, 0⟩] : Songs).take 1 ++
      ([⟨0, 5, 0, 0⟩, ⟨1, 6, 0, 0⟩, ⟨2, 7, 0, 0⟩] : Songs).drop 2, 1) rfl
  exact ⟨(C6_remove_range [⟨0, 5, 0, 0⟩, ⟨1, 6, 0, 0⟩, ⟨2, 7, 0, 0⟩] 1 4).1.mpr
      (by decide),
    h.1, h.2.1 0 (by decide), h.2.2 1 (by decide)⟩

/-- C3: the diff query returns exactly the entries in the window whose position
is at or above the recorded floor or whose own entry version is newer than the
queried version; consequently, after any command sequence, every entry in the
window whose stored value actually differs from the earlier state is included
(no false negatives), for any queried version. -/
theorem C3_diff_changes :
    (∀ (s : Facade) (v a b p : Nat) (e : Entry),
      (p, e) ∈ diffSince s v a b ↔
        (s.songs[p]? = some e ∧ a ≤ p ∧ p < b ∧ (s.floor ≤ p ∨ v < e.version))) ∧
    (∀ (s : Facade) (ecs : List (Env × Cmd)) (v a b p : Nat) (e : Entry),
      a ≤ p → p < b →
      (applyCmds s ecs).songs[p]? = some e →
      (applyCmds s ecs).songs[p]? ≠ s.songs[p]? →
      (p, e) ∈ diffSince (applyCmds s ecs) v a b) := by
  constructor
  · intro s v a b p e
    exact diffSince_mem_iff
  · intro s ecs v a b p e hap hpb hsome hchg
    have hFS := applyCmds_floorStep ecs s
    have hfl : (applyCmds s ecs).floor ≤ p := by
      by_contra hcon
      exact hchg (hFS.2 p (by omega))
    exact diffSince_mem_iff.mpr ⟨hsome, hap, hpb, Or.inl hfl⟩

theorem C3_diff_changes_witness :
    (0, (⟨0, 42, 0, 1⟩ : Entry)) ∈
      diffSince (applyCmds (initQueue 9)
        [(⟨fun _ => [], fun _ => 42⟩, Cmd.addId "x" none)]) 0 0 5 := by
  refine C3_diff_changes.2 (initQueue 9)
    [(⟨fun _ => [], fun _ => 42⟩, Cmd.addId "x" none)] 0 0 5 0 ⟨0, 42, 0, 1⟩
    (by decide) (by decide) (by decide) (by decide)

/-- C7: `shuffle_range(start, stop)` permutes only the inside of the range —
the multiset of ids occupying positions `[start, stop)` is unchanged, and every
position outside the range keeps exactly the same id and song. -/
theorem C7_shuffle_frame (s : Facade) (rng : Nat → Nat) (a b : Nat) (s2 : Facade)
    (r : Option Err) (hab : a ≤ b) (hbl : b ≤ s.songs.length)
    (h : applyMut s (.shuffle rng a b) = (s2, r)) :
    (↑(((s2.songs.drop a).take (b - a)).map Entry.id) : Multiset Nat) =
      ↑(((s.songs.drop a).take (b - a)).map Entry.id) ∧
    ∀ p, p < a ∨ b ≤ p →
      (s2.songs[p]?).map (fun e => (e.id, e.song)) =
        (s.songs[p]?).map (fun e => (e.id, e.song)) := by
  have hmin1 : min b s.songs.length = b := Nat.min_eq_left hbl
  have hrun : runStore s (.shuffle rng a b) =
      .ok (fyShuffle rng a (b - a) s.songs, a, s.nextId) := by
    simp only [runStore, ShuffleRange]
    rw [hmin1, Nat.min_eq_left hab]
  cases r with
  | some e =>
    exfalso
    simp only [applyMut, hrun] at h
    by_cases hb2 : s.bulkDepth = 0
    · rw [if_pos hb2] at h
      injection h with _ h2
      cases h2
    · rw [if_neg hb2] at h
      injection h with _ h2
      cases h2
  | none =>
    obtain ⟨l2, t, nid, hr2, hsongs, _, _, _, _, _⟩ := applyMut_ok h
    rw [hrun] at hr2
    injection hr2 with hr3
    have hl2 : l2 = fyShuffle rng a (b - a) s.songs := (congrArg Prod.fst hr3).symm
    subst hl2
    have ht2 : t = a := (congrArg (fun q => q.2.1) hr3).symm
    rw [ht2] at hsongs
    constructor
    · have hperm : fyShuffle rng a (b - a) s.songs ~ s.songs :=
        fyShuffle_perm rng a (b - a) s.songs (by omega)
      have hlenL : (fyShuffle rng a (b - a) s.songs).length = s.songs.length :=
        fyShuffle_length rng a (b - a) s.songs
      have hdrop : s2.songs.drop a = ((fyShuffle rng a (b - a) s.songs).drop a).map
          (fun e => { e with version := s.version + 1 }) := by
        rw [hsongs, stampFrom]
        have hta : ((fyShuffle rng a (b - a) s.songs).take a).length = a := by
          rw [List.length_take]
          omega
        exact List.drop_left' hta
      have hslice2 : ((s2.songs.drop a).take (b - a)).map Entry.id =
          (((fyShuffle rng a (b - a) s.songs).drop a).take (b - a)).map Entry.id := by
        rw [hdrop]
        have hmt : ((((fyShuffle rng a (b - a) s.songs).drop a).map
            (fun e => { e with version := s.version + 1 })).take (b - a)) =
            (((fyShuffle rng a (b - a) s.songs).drop a).take (b - a)).map
              (fun e => { e with version := s.version + 1 }) := by
          simp [List.map_take]
        rw [hmt, List.map_map]
        rfl
      rw [hslice2]
      have htake : (fyShuffle rng a (b - a) s.songs).take a = s.songs.take a := by
        apply List.ext_getElem?
        intro i
        rw [List.getElem?_take, List.getElem?_take]
        by_cases hia : i < a
        · rw [if_pos hia, if_pos hia,
            fyShuffle_getElem?_outside rng a (b - a) s.songs i (Or.inl hia)]
        · rw [if_neg hia, if_neg hia]
      have hdropb : (fyShuffle rng a (b - a) s.songs).drop b = s.songs.drop b := by
        apply List.ext_getElem?
        intro i
        rw [List.getElem?_drop, List.getElem?_drop]
        exact fyShuffle_getElem?_outside rng a (b - a) s.songs (b + i) (Or.inr (by omega))
      have hdecL := take_mid_drop a b (fyShuffle rng a (b - a) s.songs) hab
      have hdecS := take_mid_drop a b s.songs hab
      have hcoeL : (↑(fyShuffle rng a (b - a) s.songs) : Multiset Entry) =
          ↑((fyShuffle rng a (b - a) s.songs).take a) +
            (↑(((fyShuffle rng a (b - a) s.songs).drop a).take (b - a)) +
              ↑((fyShuffle rng a (b - a) s.songs).drop b)) := by
        conv_lhs => rw [← hdecL]
        rw [← Multiset.coe_add, ← Multiset.coe_add]
      have hcoeS : (↑s.songs : Multiset Entry) =
          ↑(s.songs.take a) +
            (↑((s.songs.drop a).take (b - a)) + ↑(s.songs.drop b)) := by
        conv_lhs => rw [← hdecS]
        rw [← Multiset.coe_add, ← Multiset.coe_add]
      have hLS : (↑(fyShuffle rng a (b - a) s.songs) : Multiset Entry) = ↑s.songs :=
        Multiset.coe_eq_coe.mpr hperm
      rw [hcoeL, hcoeS, htake, hdropb] at hLS
      have hmid : (↑(((fyShuffle rng a (b - a) s.songs).drop a).take (b - a)) :
          Multiset Entry) = ↑((s.songs.drop a).take (b - a)) :=
        add_right_cancel (add_left_cancel hLS)
      exact Multiset.coe_eq_coe.mpr ((Multiset.coe_eq_coe.mp hmid).map Entry.id)
    · intro p hp
      rcases hp with hp | hp
      · rw [hsongs, stampFrom_getElem?_lt hp,
          fyShuffle_getElem?_outside rng a (b - a) s.songs p (Or.inl hp)]
      · rw [hsongs, stampFrom_getElem?_ge (by omega),
          fyShuffle_getElem?_outside rng a (b - a) s.songs p (Or.inr (by omega)),
          Option.map_map]
        rfl

theorem C7_shuffle_frame_witness :
    (↑((((applyMut (applyMuts (initQueue 9)
          [.append 10, .append 11, .append 12, .append 13, .append 14]).1
        (.shuffle (fun n => n + 2) 1 4)).1.songs.drop 1).take 3).map Entry.id) :
        Multiset Nat) =
      ↑(((((applyMuts (initQueue 9)
          [.append 10, .append 11, .append 12, .append 13, .append 14]).1.songs.drop 1).take
            3).map Entry.id)) ∧
    ((applyMut (applyMuts (initQueue 9)
          [.append 10, .append 11, .append 12, .append 13, .append 14]).1
        (.shuffle (fun n => n + 2) 1 4)).1.songs[0]?).map (fun e => (e.id, e.song)) =
      ((applyMuts (initQueue 9)
          [.append 10, .append 11, .append 12, .append 13, .append 14]).1.songs[0]?).map
        (fun e => (e.id, e.song)) ∧
    ((applyMut (applyMuts (initQueue 9)
          [.append 10, .append 11, .append 12, .append 13, .append 14]).1
        (.shuffle (fun n => n + 2) 1 4)).1.songs[4]?).map (fun e => (e.id, e.song)) =
      ((applyMuts (initQueue 9)
          [.append 10, .append 11, .append 12, .append 13, .append 14]).1.songs[4]?).map
        (fun e => (e.id, e.song)) := by
  have h := C7_shuffle_frame (applyMuts (initQueue 9)
      [.append 10, .append 11, .append 12, .append 13, .append 14]).1
    (fun n => n + 2) 1 4 _ _ (by decide) (by decide) rfl
  exact ⟨h.1, h.2 0 (Or.inl (by decide)), h.2 4 (Or.inr (by decide))⟩

/-- C8: every stored priority lies in `[0, 255]` and a freshly inserted entry
has priority 0; a priority argument above 255 is rejected by the `prio` /
`prioid` handlers before any entry is modified, so no reachable state stores a
priority outside `[0, 255]`. -/
theorem C8_priority_bounds :
    (∀ (env : Env) (s : Facade) (p : Nat) (ranges : List (Nat × Nat)), 255 < p →
      applyCmd env s (.prio p ranges) = (s, some .badArg)) ∧
    (∀ (env : Env) (s : Facade) (p : Nat) (ids : List Nat), 255 < p →
      applyCmd env s (.prioId p ids) = (s, some .badArg)) ∧
    (∀ (maxLen nextId : Nat) (l : Songs) (idx song : Nat), l.length < maxLen →
      InsertSong maxLen nextId l idx song =
        .ok (insertAtPos l (min idx l.length) ⟨nextId, song, 0, 0⟩,
          min idx l.length, nextId + 1)) ∧
    (∀ s : Facade, Reach s → ∀ e ∈ s.songs, e.prio ≤ 255) := by
  refine ⟨?_, ?_, ?_, ?_⟩
  · intro env s p ranges hp
    simp only [applyCmd, if_pos hp]
  · intro env s p ids hp
    simp only [applyCmd, if_pos hp]
  · intro maxLen nextId l idx song hcap
    rw [InsertSong, if_neg (by omega)]
  · intro s h
    exact reach_prioInv h

theorem C8_priority_bounds_witness :
    applyCmd ⟨fun _ => [], fun _ => 0⟩ (initQueue 3) (.prio 256 [(0, 1)]) =
      (initQueue 3, some .badArg) ∧
    applyCmd ⟨fun _ => [], fun _ => 0⟩ (initQueue 3) (.prioId 999 [0]) =
      (initQueue 3, some .badArg) ∧
    InsertSong 3 0 [] 0 42 = .ok (insertAtPos [] (min 0 ([] : Songs).length)
      ⟨0, 42, 0, 0⟩, min 0 ([] : Songs).length, 0 + 1) ∧
    ∀ e ∈ (initQueue 3).songs, e.prio ≤ 255 := by
  refine ⟨C8_priority_bounds.1 _ _ 256 _ (by decide),
    C8_priority_bounds.2.1 _ _ 999 _ (by decide),
    C8_priority_bounds.2.2.1 3 0 [] 0 42 (by decide),
    C8_priority_bounds.2.2.2 _ (Reach.init 3)⟩

/-- C9: the `add`/`addid` handlers rewrite the literal URI `"/"` to the empty
string before any lookup — `add "/"` behaves identically to `add ""` — and
every other URI is passed through unchanged. -/
theorem C9_add_slash_rewrite :
    translateAddUri "/" = "" ∧
    (∀ uri, uri ≠ "/" → translateAddUri uri = uri) ∧
    (∀ (env : Env) (s : Facade),
      applyCmd env s (.add "/") = applyCmd env s (.add "")) ∧
    (∀ (env : Env) (s : Facade) (dest : Option Nat),
      applyCmd env s (.addId "/" dest) = applyCmd env s (.addId "" dest)) := by
  have htr : translateAddUri "/" = translateAddUri "" := by decide
  refine ⟨by decide, ?_, ?_, ?_⟩
  · intro uri h
    rw [translateAddUri, if_neg h]
  · intro env s
    simp only [applyCmd, htr]
  · intro env s dest
    simp only [applyCmd, htr]

theorem C9_add_slash_rewrite_witness :
    translateAddUri "abc" = "abc" ∧
    applyCmd ⟨fun u => if u = "" then [1, 2] else [], fun _ => 0⟩ (initQueue 9)
        (.add "/") =
      applyCmd ⟨fun u => if u = "" then [1, 2] else [], fun _ => 0⟩ (initQueue 9)
        (.add "") ∧
    applyCmd ⟨fun _ => [], fun u => if u = "" then 5 else 6⟩ (initQueue 9)
        (.addId "/" none) =
      applyCmd ⟨fun _ => [], fun u => if u = "" then 5 else 6⟩ (initQueue 9)
        (.addId "" none) :=
  ⟨C9_add_slash_rewrite.2.1 "abc" (by decide),
   C9_add_slash_rewrite.2.2.1 _ (initQueue 9),
   C9_add_slash_rewrite.2.2.2 _ (initQueue 9) none⟩

/-! ### The `parse_time_range` helper of `QueueCommands.cxx`

Embedded from lines 186–210 of `QueueCommands.cxx`.  `ParseFloat` is the
`strtof`-style wrapper from `util/NumberParser.hxx` (not among the shown
sources): it parses an optionally signed decimal literal, returning the parsed
value and the rest of the input, with value `0` and no consumption when no
conversion is possible; exotic `strtof` forms (exponents, hex, infinities,
leading whitespace) are outside the embedded grammar.  `SongTime::FromS`
truncates seconds to integer milliseconds. -/

/-- Value of a digit string read in base 10. -/
def digitsToNat (ds : List Char) : Nat :=
  ds.foldl (fun acc c => 10 * acc + (c.toNat - '0'.toNat)) 0

/-- The exact value of a decimal literal, as a scaled integer: the pair
`(m, k)` denotes `m / 10 ^ k` seconds.  This represents the `strtof` result
exactly (float rounding is idealized away). -/
abbrev DecVal := ℤ × Nat

/-- Parse an unsigned decimal literal (digits, optionally with a fractional
part after a dot; at least one digit overall), returning its exact value and
the unconsumed rest. -/
def parseUnsignedFloat (cs : List Char) : Option (DecVal × List Char) :=
  let ds := cs.takeWhile Char.isDigit
  let r1 := cs.dropWhile Char.isDigit
  match r1 with
  | c :: r2 =>
    if c = '.' then
      let fs := r2.takeWhile Char.isDigit
      let r3 := r2.dropWhile Char.isDigit
      if ds.isEmpty && fs.isEmpty then none
      else some ((((digitsToNat ds * 10 ^ fs.length + digitsToNat fs : Nat) : ℤ),
        fs.length), r3)
    else if ds.isEmpty then none
    else some ((((digitsToNat ds : Nat) : ℤ), 0), r1)
  | [] => if ds.isEmpty then none else some ((((digitsToNat ds : Nat) : ℤ), 0), r1)

/-- Parse an optionally signed decimal literal. -/
def parseFloatCore (cs : List Char) : Option (DecVal × List Char) :=
  match cs with
  | [] => none
  | c :: rest =>
    if c = '-' then (parseUnsignedFloat rest).map (fun v => ((-v.1.1, v.1.2), v.2))
    else if c = '+' then parseUnsignedFloat rest
    else parseUnsignedFloat cs

/-- `ParseFloat` with `strtof` endptr semantics: on failure the value is `0`
and the end pointer is the original input. -/
def ParseFloat (cs : List Char) : DecVal × List Char :=
  match parseFloatCore cs with
  | none => ((0, 0), cs)
  | some v => v

/-- `SongTime::FromS`: fractional seconds to integer milliseconds, truncated
(`m / 10 ^ k` seconds is `m * 1000 / 10 ^ k` milliseconds, rounded toward
zero; only reached for non-negative values). -/
def songTimeFromS (v : DecVal) : Nat :=
  v.1.toNat * 1000 / 10 ^ v.2

/-- The second half of `parse_time_range`: parse `END` from the text after
the colon (`*endptr` must be the terminator, the value non-negative), then
accept when `end_r.IsZero() || end_r > start_r`. -/
def parseEnd (start_r : Nat) (p2 : List Char) : Option (Nat × Nat) :=
  let pr2 := ParseFloat p2
  match pr2.2 with
  | [] =>
    if pr2.1.1 < 0 then none
    else
      let end_r := if pr2.2.length < p2.length then songTimeFromS pr2.1 else 0
      if end_r = 0 ∨ start_r < end_r then some (start_r, end_r) else none
  | _ => none

/-- Embedded from `parse_time_range` (`QueueCommands.cxx`, lines 186–210):
parse `"START:END"`, both optional fractional non-negative seconds, into
integer milliseconds; accept only when `END` is zero (or omitted) or strictly
greater than `START`. -/
def parse_time_range (cs : List Char) : Option (Nat × Nat) :=
  let pr := ParseFloat cs
  match pr.2 with
  | c :: p2 =>
    if c = ':' then
      if pr.1.1 < 0 then none
      else parseEnd (if pr.2.length < cs.length then songTimeFromS pr.1 else 0) p2
    else none
  | [] => none

/-- Written from the claim: the shape and ℚ value of an unsigned decimal
literal — a nonempty digit string, or digits with a dot where at least one
digit appears on either side. -/
inductive FloatShape : List Char → DecVal → Prop where
  | intOnly (ds : List Char) (hne : ds ≠ []) (hd : ∀ c ∈ ds, c.isDigit = true) :
      FloatShape ds (((digitsToNat ds : Nat) : ℤ), 0)
  | withDot (ds fs : List Char) (hne : ds ≠ [] ∨ fs ≠ [])
      (hd : ∀ c ∈ ds, c.isDigit = true) (hf : ∀ c ∈ fs, c.isDigit = true) :
      FloatShape (ds ++ '.' :: fs)
        (((digitsToNat ds * 10 ^ fs.length + digitsToNat fs : Nat) : ℤ), fs.length)

/-- Written from the claim: an optionally signed decimal literal. -/
inductive SignedFloat : List Char → DecVal → Prop where
  | plain {cs : List Char} {q : DecVal} : FloatShape cs q → SignedFloat cs q
  | pos {cs : List Char} {q : DecVal} : FloatShape cs q → SignedFloat ('+' :: cs) q
  | neg {cs : List Char} {q : DecVal} : FloatShape cs q → SignedFloat ('-' :: cs) (-q.1, q.2)

/-- Written from the claim: an optional non-negative time in seconds — either
omitted (value zero) or a signed decimal literal with non-negative value. -/
def OptNonnegSeconds (cs : List Char) (q : DecVal) : Prop :=
  (cs = [] ∧ q = (0, 0)) ∨ (SignedFloat cs q ∧ 0 ≤ q.1)

/-- Written from the claim: `cs` has the form `"START:END"` with optional
non-negative fractional-second endpoints whose millisecond values are `ms`,
and the end is zero/omitted or strictly greater than the start. -/
def TimeRangeSpec (cs : List Char) (ms : Nat × Nat) : Prop :=
  ∃ (sStr eStr : List Char) (sq eq2 : DecVal),
    cs = sStr ++ ':' :: eStr ∧
    OptNonnegSeconds sStr sq ∧ OptNonnegSeconds eStr eq2 ∧
    ms.1 = songTimeFromS sq ∧ ms.2 = songTimeFromS eq2 ∧
    (ms.2 = 0 ∨ ms.1 < ms.2)

/-! ### Float-parser correctness -/

/-- The rest of the input cannot extend a decimal literal: its head, if any,
is neither a digit nor a dot. -/
def NonFloatHead (r : List Char) : Prop :=
  ∀ c, r.head? = some c → (c.isDigit = false ∧ c ≠ '.')

theorem nonFloatHead_takeWhile {r : List Char} (hr : NonFloatHead r) :
    r.takeWhile Char.isDigit = [] := by
  cases r with
  | nil => rfl
  | cons c t =>
    have hcr := hr c rfl
    exact List.takeWhile_cons_of_neg (by simp [hcr.1])

theorem nonFloatHead_dropWhile {r : List Char} (hr : NonFloatHead r) :
    r.dropWhile Char.isDigit = r := by
  cases r with
  | nil => rfl
  | cons c t =>
    have hcr := hr c rfl
    exact List.dropWhile_cons_of_neg (by simp [hcr.1])

theorem parseUnsignedFloat_shape {pre r : List Char} {q : DecVal} (h : FloatShape pre q)
    (hr : NonFloatHead r) : parseUnsignedFloat (pre ++ r) = some (q, r) := by
  cases h with
  | intOnly ds hne hd =>
    have h1 : (pre ++ r).takeWhile Char.isDigit = pre := by
      rw [List.takeWhile_append_of_pos hd, nonFloatHead_takeWhile hr, List.append_nil]
    have h2 : (pre ++ r).dropWhile Char.isDigit = r := by
      rw [List.dropWhile_append_of_pos hd, nonFloatHead_dropWhile hr]
    simp only [parseUnsignedFloat, h1, h2]
    cases r with
    | nil => rw [if_neg (by simp [hne])]
    | cons c t =>
      have hc := hr c rfl
      dsimp only
      rw [if_neg hc.2, if_neg (by simp [hne])]
  | withDot ds fs hne hd hf =>
    have hsplit : (ds ++ '.' :: fs) ++ r = ds ++ '.' :: (fs ++ r) := by simp
    rw [hsplit]
    have h1 : (ds ++ '.' :: (fs ++ r)).takeWhile Char.isDigit = ds := by
      rw [List.takeWhile_append_of_pos hd, List.takeWhile_cons_of_neg (by decide),
        List.append_nil]
    have h2 : (ds ++ '.' :: (fs ++ r)).dropWhile Char.isDigit = '.' :: (fs ++ r) := by
      rw [List.dropWhile_append_of_pos hd, List.dropWhile_cons_of_neg (by decide)]
    have h3 : (fs ++ r).takeWhile Char.isDigit = fs := by
      rw [List.takeWhile_append_of_pos hf, nonFloatHead_takeWhile hr, List.append_nil]
    have h4 : (fs ++ r).dropWhile Char.isDigit = r := by
      rw [List.dropWhile_append_of_pos hf, nonFloatHead_dropWhile hr]
    simp only [parseUnsignedFloat, h1, h2, h3, h4]
    rw [if_pos (by trivial), if_neg ?_]
    rcases hne with hne | hne <;> simp [hne]

theorem floatShape_head {pre : List Char} {q : DecVal} (h : FloatShape pre q) :
    ∃ c rest, pre = c :: rest ∧ (c.isDigit = true ∨ c = '.') := by
  cases h with
  | intOnly ds hne hd =>
    cases hpre : pre with
    | nil => exact absurd hpre hne
    | cons c t =>
      refine ⟨c, t, rfl, Or.inl (hd c ?_)⟩
      rw [hpre]
      exact List.mem_cons_self c t
  | withDot ds fs hne hd hf =>
    cases ds with
    | nil => exact ⟨'.', fs, rfl, Or.inr rfl⟩
    | cons c t => exact ⟨c, t ++ '.' :: fs, rfl, Or.inl (hd c (List.mem_cons_self c t))⟩

theorem parseFloatCore_plus (l : List Char) :
    parseFloatCore ('+' :: l) = parseUnsignedFloat l := by
  simp only [parseFloatCore]
  rw [if_neg (show ¬('+' : Char) = '-' by decide), if_pos trivial]

theorem parseFloatCore_minus (l : List Char) :
    parseFloatCore ('-' :: l) = (parseUnsignedFloat l).map (fun v => ((-v.1.1, v.1.2), v.2)) := by
  simp only [parseFloatCore]
  rw [if_pos trivial]

theorem parseFloatCore_other {c : Char} (l : List Char) (h2 : c ≠ '-') (h3 : c ≠ '+') :
    parseFloatCore (c :: l) = parseUnsignedFloat (c :: l) := by
  simp only [parseFloatCore]
  rw [if_neg h2, if_neg h3]

theorem parseFloatCore_signed {pre r : List Char} {q : DecVal} (h : SignedFloat pre q)
    (hr : NonFloatHead r) : parseFloatCore (pre ++ r) = some (q, r) := by
  cases h with
  | plain hs =>
    obtain ⟨c, rest, hpre, hc⟩ := floatShape_head hs
    subst hpre
    have hc1 : c ≠ '-' := by
      rcases hc with hc | hc
      · intro he
        rw [he] at hc
        exact absurd hc (by decide)
      · rw [hc]
        decide
    have hc2 : c ≠ '+' := by
      rcases hc with hc | hc
      · intro he
        rw [he] at hc
        exact absurd hc (by decide)
      · rw [hc]
        decide
    rw [List.cons_append, parseFloatCore_other _ hc1 hc2, ← List.cons_append]
    exact parseUnsignedFloat_shape hs hr
  | pos hs =>
    rw [List.cons_append, parseFloatCore_plus]
    exact parseUnsignedFloat_shape hs hr
  | neg hs =>
    rw [List.cons_append, parseFloatCore_minus, parseUnsignedFloat_shape hs hr]
    rfl

theorem parseFloatCore_nonfloat {c : Char} {l : List Char} (hd : c.isDigit = false)
    (h1 : c ≠ '.') (h2 : c ≠ '-') (h3 : c ≠ '+') : parseFloatCore (c :: l) = none := by
  have ht : (c :: l).takeWhile Char.isDigit = [] :=
    List.takeWhile_cons_of_neg (by simp [hd])
  have hw : (c :: l).dropWhile Char.isDigit = c :: l :=
    List.dropWhile_cons_of_neg (by simp [hd])
  rw [parseFloatCore_other _ h2 h3]
  simp only [parseUnsignedFloat, ht, hw]
  rw [if_neg h1]
  simp

theorem parseUnsignedFloat_sound {cs : List Char} {q : DecVal} {r : List Char}
    (h : parseUnsignedFloat cs = some (q, r)) :
    ∃ pre, cs = pre ++ r ∧ FloatShape pre q ∧ pre ≠ [] := by
  have hsplit : cs = cs.takeWhile Char.isDigit ++ cs.dropWhile Char.isDigit :=
    (List.takeWhile_append_dropWhile _ _).symm
  rcases hr1 : cs.dropWhile Char.isDigit with _ | ⟨c, r2⟩
  · simp only [parseUnsignedFloat, hr1] at h
    by_cases hds : (cs.takeWhile Char.isDigit).isEmpty = true
    · rw [if_pos hds] at h
      cases h
    · rw [if_neg hds] at h
      injection h with h2
      have hq : ((((digitsToNat (cs.takeWhile Char.isDigit) : Nat) : ℤ), (0 : Nat)) : DecVal) = q := congrArg Prod.fst h2
      have hrr : r = [] := (congrArg Prod.snd h2).symm
      refine ⟨cs.takeWhile Char.isDigit, ?_, ?_, by simpa using hds⟩
      · rw [hrr, List.append_nil]
        conv_lhs => rw [hsplit]
        rw [hr1, List.append_nil]
      · rw [← hq]
        exact FloatShape.intOnly _ (by simpa using hds)
          (fun c2 hc2 => List.mem_takeWhile_imp hc2)
  · simp only [parseUnsignedFloat, hr1] at h
    by_cases hc : c = '.'
    · subst hc
      rw [if_pos rfl] at h
      by_cases hef : ((cs.takeWhile Char.isDigit).isEmpty &&
          (r2.takeWhile Char.isDigit).isEmpty) = true
      · rw [if_pos hef] at h
        cases h
      · rw [if_neg hef] at h
        injection h with h2
        have hq : ((((digitsToNat (cs.takeWhile Char.isDigit) * 10 ^
            (r2.takeWhile Char.isDigit).length +
            digitsToNat (r2.takeWhile Char.isDigit) : Nat) : ℤ),
            (r2.takeWhile Char.isDigit).length) : DecVal) = q := congrArg Prod.fst h2
        have hrr : r = r2.dropWhile Char.isDigit := (congrArg Prod.snd h2).symm
        have hne : cs.takeWhile Char.isDigit ≠ [] ∨ r2.takeWhile Char.isDigit ≠ [] := by
          by_contra hcon
          push_neg at hcon
          apply hef
          simp [hcon.1, hcon.2]
        refine ⟨cs.takeWhile Char.isDigit ++ '.' :: r2.takeWhile Char.isDigit, ?_, ?_, by simp⟩
        · conv_lhs => rw [hsplit]
          rw [hr1, hrr]
          conv_lhs =>
            rw [show r2 = r2.takeWhile Char.isDigit ++ r2.dropWhile Char.isDigit from
              (List.takeWhile_append_dropWhile _ _).symm]
          simp [List.append_assoc]
        · rw [← hq]
          exact FloatShape.withDot _ _ hne (fun c2 hc2 => List.mem_takeWhile_imp hc2)
            (fun c2 hc2 => List.mem_takeWhile_imp hc2)
    · rw [if_neg hc] at h
      by_cases hds : (cs.takeWhile Char.isDigit).isEmpty = true
      · rw [if_pos hds] at h
        cases h
      · rw [if_neg hds] at h
        injection h with h2
        have hq : ((((digitsToNat (cs.takeWhile Char.isDigit) : Nat) : ℤ), (0 : Nat)) : DecVal) = q := congrArg Prod.fst h2
        have hrr : r = c :: r2 := (congrArg Prod.snd h2).symm
        refine ⟨cs.takeWhile Char.isDigit, ?_, ?_, by simpa using hds⟩
        · rw [hrr]
          conv_lhs => rw [hsplit]
          rw [hr1]
        · rw [← hq]
          exact FloatShape.intOnly _ (by simpa using hds)
            (fun c2 hc2 => List.mem_takeWhile_imp hc2)

theorem parseFloatCore_sound {cs : List Char} {q : DecVal} {r : List Char}
    (h : parseFloatCore cs = some (q, r)) :
    ∃ pre, cs = pre ++ r ∧ SignedFloat pre q ∧ pre ≠ [] := by
  cases cs with
  | nil => cases h
  | cons c rest =>
    by_cases h2 : c = '-'
    · subst h2
      rw [parseFloatCore_minus] at h
      rcases hu : parseUnsignedFloat rest with _ | v
      · rw [hu] at h
        cases h
      · rw [hu] at h
        obtain ⟨q0, r0⟩ := v
        injection h with h3
        have hq : ((-q0.1, q0.2) : DecVal) = q := congrArg Prod.fst h3
        have hrr : r = r0 := (congrArg Prod.snd h3).symm
        obtain ⟨pre0, hrest, hshape, _⟩ := parseUnsignedFloat_sound hu
        refine ⟨'-' :: pre0, ?_, ?_, by simp⟩
        · rw [hrr, hrest]
          rfl
        · rw [← hq]
          exact SignedFloat.neg hshape
    · by_cases h3 : c = '+'
      · subst h3
        rw [parseFloatCore_plus] at h
        obtain ⟨pre0, hrest, hshape, _⟩ := parseUnsignedFloat_sound h
        refine ⟨'+' :: pre0, ?_, SignedFloat.pos hshape, by simp⟩
        rw [hrest]
        rfl
      · rw [parseFloatCore_other _ h2 h3] at h
        obtain ⟨pre0, hrest, hshape, hne⟩ := parseUnsignedFloat_sound h
        exact ⟨pre0, hrest, SignedFloat.plain hshape, hne⟩

theorem songTimeFromS_zero : songTimeFromS (0, 0) = 0 := by decide

theorem signedFloat_ne_nil {pre : List Char} {q : DecVal} (h : SignedFloat pre q) :
    pre ≠ [] := by
  cases h with
  | plain hs =>
    obtain ⟨c, rest, hp, _⟩ := floatShape_head hs
    rw [hp]
    exact List.cons_ne_nil _ _
  | pos hs => exact List.cons_ne_nil _ _
  | neg hs => exact List.cons_ne_nil _ _

theorem nonFloatHead_nil : NonFloatHead [] := by
  intro c h
  cases h

theorem nonFloatHead_colon (l : List Char) : NonFloatHead (':' :: l) := by
  intro c h
  rw [List.head?_cons] at h
  injection h with h2
  subst h2
  exact ⟨by decide, by decide⟩

/-- Soundness of the end phase: a successful `parseEnd` means the text after
the colon is an optional non-negative time whose milliseconds fill `ms.2`,
with the zero-or-greater acceptance condition. -/
theorem parseEnd_sound {start_r : Nat} {p2 : List Char} {ms : Nat × Nat}
    (h : parseEnd start_r p2 = some ms) :
    ∃ eq2 : DecVal, OptNonnegSeconds p2 eq2 ∧ ms = (start_r, songTimeFromS eq2) ∧
      (ms.2 = 0 ∨ ms.1 < ms.2) := by
  rcases hcore : parseFloatCore p2 with _ | v
  · have hPF : ParseFloat p2 = ((0, 0), p2) := by rw [ParseFloat, hcore]
    rcases p2 with _ | ⟨c, t⟩
    · have hval : parseEnd start_r [] = some (start_r, 0) := rfl
      rw [hval] at h
      injection h with h2
      refine ⟨(0, 0), Or.inl ⟨rfl, rfl⟩, ?_, ?_⟩
      · rw [songTimeFromS_zero, h2]
      · rw [← h2]
        exact Or.inl rfl
    · simp only [parseEnd, hPF] at h
      cases h
  · obtain ⟨q2, r2⟩ := v
    have hPF : ParseFloat p2 = (q2, r2) := by rw [ParseFloat, hcore]
    rcases r2 with _ | ⟨c, t⟩
    · simp only [parseEnd, hPF, List.length_nil] at h
      obtain ⟨pre, hp2, hsf, hne⟩ := parseFloatCore_sound hcore
      rw [List.append_nil] at hp2
      by_cases hneg : q2.1 < 0
      · rw [if_pos hneg] at h
        cases h
      · rw [if_neg hneg] at h
        have hlen : 0 < p2.length := by
          rw [hp2]
          exact List.length_pos.mpr hne
        rw [if_pos hlen] at h
        by_cases hcond : songTimeFromS q2 = 0 ∨ start_r < songTimeFromS q2
        · rw [if_pos hcond] at h
          injection h with h2
          refine ⟨q2, ?_, h2.symm, ?_⟩
          · rw [hp2]
            exact Or.inr ⟨hsf, Int.not_lt.mp hneg⟩
          · rw [← h2]
            simpa using hcond
        · rw [if_neg hcond] at h
          cases h
    · simp only [parseEnd, hPF] at h
      cases h

/-- Completeness of the end phase: on an optional non-negative time the end
phase applies exactly the `end_r.IsZero() || end_r > start_r` test. -/
theorem parseEnd_complete {p2 : List Char} {eq2 : DecVal} (he : OptNonnegSeconds p2 eq2)
    (start_r : Nat) :
    parseEnd start_r p2 =
      if songTimeFromS eq2 = 0 ∨ start_r < songTimeFromS eq2
      then some (start_r, songTimeFromS eq2) else none := by
  rcases he with ⟨hnil, hq⟩ | ⟨hsf, hge⟩
  · subst hnil
    subst hq
    rw [songTimeFromS_zero, if_pos (Or.inl rfl)]
    rfl
  · have hcore : parseFloatCore p2 = some (eq2, []) := by
      have h2 := parseFloatCore_signed hsf nonFloatHead_nil
      rwa [List.append_nil] at h2
    have hPF : ParseFloat p2 = (eq2, []) := by rw [ParseFloat, hcore]
    have hlen : (0 : Nat) < p2.length := List.length_pos.mpr (signedFloat_ne_nil hsf)
    simp only [parseEnd, hPF, List.length_nil]
    rw [if_neg (Int.not_lt.mpr hge), if_pos hlen]

/-- Soundness of the start phase: a successful `parse_time_range` splits the
input at the colon reached by `ParseFloat`, with an optional non-negative
start time, and hands its milliseconds to the end phase. -/
theorem parse_time_range_sound {cs : List Char} {ms : Nat × Nat}
    (h : parse_time_range cs = some ms) :
    ∃ sStr p2 sq, cs = sStr ++ ':' :: p2 ∧ OptNonnegSeconds sStr sq ∧
      parseEnd (songTimeFromS sq) p2 = some ms := by
  rcases hcore : parseFloatCore cs with _ | v
  · have hPF : ParseFloat cs = ((0, 0), cs) := by rw [ParseFloat, hcore]
    rcases cs with _ | ⟨c, p2⟩
    · rw [show parse_time_range [] = none from rfl] at h
      cases h
    · by_cases hc : c = ':'
      · subst hc
        refine ⟨[], p2, (0, 0), rfl, Or.inl ⟨rfl, rfl⟩, ?_⟩
        rw [songTimeFromS_zero]
        simp only [parse_time_range, hPF] at h
        rw [if_pos trivial, if_neg (show ¬(0 : ℤ) < 0 by decide),
          if_neg (Nat.lt_irrefl _)] at h
        exact h
      · simp only [parse_time_range, hPF] at h
        rw [if_neg hc] at h
        cases h
  · obtain ⟨q1, r1⟩ := v
    have hPF : ParseFloat cs = (q1, r1) := by rw [ParseFloat, hcore]
    obtain ⟨pre, hsplit, hsf, hne⟩ := parseFloatCore_sound hcore
    rcases r1 with _ | ⟨c, p2⟩
    · simp only [parse_time_range, hPF] at h
      cases h
    · by_cases hc : c = ':'
      · subst hc
        simp only [parse_time_range, hPF] at h
        rw [if_pos trivial] at h
        by_cases hneg : q1.1 < 0
        · rw [if_pos hneg] at h
          cases h
        · rw [if_neg hneg] at h
          have hlen : (':' :: p2).length < cs.length := by
            rw [hsplit, List.length_append]
            have h3 := List.length_pos.mpr hne
            omega
          rw [if_pos hlen] at h
          exact ⟨pre, p2, q1, hsplit, Or.inr ⟨hsf, Int.not_lt.mp hneg⟩, h⟩
      · simp only [parse_time_range, hPF] at h
        rw [if_neg hc] at h
        cases h

/-- Completeness of the start phase: on `START:rest` with an optional
non-negative start time, `parse_time_range` runs the end phase on `rest`
with the start milliseconds. -/
theorem parse_time_range_complete {sStr p2 : List Char} {sq : DecVal}
    (hs : OptNonnegSeconds sStr sq) :
    parse_time_range (sStr ++ ':' :: p2) = parseEnd (songTimeFromS sq) p2 := by
  rcases hs with ⟨hnil, hq⟩ | ⟨hsf, hge⟩
  · subst hnil
    subst hq
    rw [songTimeFromS_zero, List.nil_append]
    have hcore : parseFloatCore (':' :: p2) = none :=
      parseFloatCore_nonfloat (by decide) (by decide) (by decide) (by decide)
    have hPF : ParseFloat (':' :: p2) = ((0, 0), ':' :: p2) := by rw [ParseFloat, hcore]
    simp only [parse_time_range, hPF]
    rw [if_pos trivial, if_neg (show ¬(0 : ℤ) < 0 by decide),
      if_neg (Nat.lt_irrefl _)]
  · have hcore : parseFloatCore (sStr ++ ':' :: p2) = some (sq, ':' :: p2) :=
      parseFloatCore_signed hsf (nonFloatHead_colon p2)
    have hPF : ParseFloat (sStr ++ ':' :: p2) = (sq, ':' :: p2) := by
      rw [ParseFloat, hcore]
    have hlen : (':' :: p2).length < (sStr ++ ':' :: p2).length := by
      rw [List.length_append]
      have h3 := List.length_pos.mpr (signedFloat_ne_nil hsf)
      omega
    simp only [parse_time_range, hPF]
    rw [if_pos trivial, if_neg (Int.not_lt.mpr hge), if_pos hlen]

/-- **C10**: `parse_time_range` accepts exactly the strings `"START:END"`
whose two parts are optional non-negative fractional-second values, returning
their truncated millisecond values, subject to the end being zero (or
omitted) or strictly greater than the start. -/
theorem C10_parse_time_range (cs : List Char) (ms : Nat × Nat) :
    parse_time_range cs = some ms ↔ TimeRangeSpec cs ms := by
  constructor
  · intro h
    obtain ⟨sStr, p2, sq, hcs, hs, hend⟩ := parse_time_range_sound h
    obtain ⟨eq2, he, hms, hcond⟩ := parseEnd_sound hend
    exact ⟨sStr, p2, sq, eq2, hcs, hs, he, by rw [hms], by rw [hms], hcond⟩
  · rintro ⟨sStr, eStr, sq, eq2, hcs, hs, he, hm1, hm2, hcond⟩
    subst hcs
    rw [parse_time_range_complete hs, parseEnd_complete he, ← hm1, ← hm2,
      if_pos hcond]

/-- Concrete check of C10: `"1:3"` parses to one and three seconds in
milliseconds. -/
theorem C10_parse_time_range_witness :
    parse_time_range ['1', ':', '3'] = some (1000, 3000) :=
  (C10_parse_time_range ['1', ':', '3'] (1000, 3000)).mpr
    ⟨['1'], ['3'], (((digitsToNat ['1'] : Nat) : ℤ), 0),
      (((digitsToNat ['3'] : Nat) : ℤ), 0), rfl,
      Or.inr ⟨SignedFloat.plain (FloatShape.intOnly ['1'] (by decide) (by decide)),
        by decide⟩,
      Or.inr ⟨SignedFloat.plain (FloatShape.intOnly ['3'] (by decide) (by decide)),
        by decide⟩,
      by decide, by decide, by decide⟩

end MpdQueue
